import Mathlib

/-!
Shallow embedding of the persistent memory + retrieval engine of the
qjson-agents repository (src/qjson_agents/retrieval.py and
src/qjson_agents/fmm_store.py), with theorems settling the frozen claims.

Modelling conventions:
- Python floats are modelled as exact real numbers; functions whose bodies
  perform real arithmetic are marked noncomputable.
- SQLite rows of the memories table are a list of records in rowid order;
  the AUTOINCREMENT-style rowid is an explicit nextId counter.
- The fractal-memory JSON tree holding the IVF index is modelled by its
  "retrieval"/"ivf" subtree as an insertion-ordered association list from
  the numeric dim key to an association list from the numeric K key to the
  index payload (the source writes string keys "dim{d}"/"K{k}" and parses
  them back to ints; the encoding is a bijection on well-formed keys).
- sha1 content fingerprints are modelled by the normalized text itself
  (a stable injective encoding); sha256 word digests of the hashed
  embedding are an arbitrary byte-function parameter named digest.
-/

namespace Qjson

/-- Maximal non-whitespace runs of a character list (helper for Python str.split()). -/
def splitWsAux : List Char → List Char → List (List Char)
  | [], acc => if acc = [] then [] else [acc.reverse]
  | c :: cs, acc =>
    if c.isWhitespace then
      (if acc = [] then splitWsAux cs [] else acc.reverse :: splitWsAux cs [])
    else splitWsAux cs (c :: acc)

/-- Model of Python str.lower(): lower-case every character. -/
def pyLower (s : String) : String :=
  String.mk (s.toList.map Char.toLower)

/-- Tokens of a Python str.split(): split on runs of whitespace, no empties. -/
def pySplit (s : String) : List String :=
  (splitWsAux s.toList []).map String.mk

/-- Model of _normalize_text: case-fold, collapse whitespace (strip().lower().split() joined by single blanks). -/
def normalize_text (t : String) : String :=
  String.intercalate " " (pySplit (pyLower t))

/-- Model of _fingerprint: sha1 of the normalized text, modelled by the normalized text itself (sha1 is a stable injective encoding). -/
def fingerprint (t : String) : String :=
  normalize_text t

/-- Vectors are lists of reals (Python lists of floats). -/
abbrev Vec := List ℝ

/-- Sum of squares of a vector's components. -/
noncomputable def sum_sq (v : Vec) : ℝ :=
  (v.map (fun x => x * x)).sum

/-- The divisor used by _norm_list: sqrt of the sum of squares plus 1e-12. -/
noncomputable def norm_div (v : Vec) : ℝ :=
  Real.sqrt (sum_sq v) + 1e-12

/-- Model of _norm_list: divide every component by norm_div. -/
noncomputable def norm_list (v : Vec) : Vec :=
  v.map (fun x => x / norm_div v)

/-- Truncate or zero-pad a vector to the requested dimension (the first half of _align_dim). -/
def pad_trunc (v : Vec) (dim : ℕ) : Vec :=
  if v.length > dim then v.take dim else v ++ List.replicate (dim - v.length) 0

/-- Model of _align_dim: truncate or zero-pad, then renormalize. -/
noncomputable def align_dim (v : Vec) (dim : ℕ) : Vec :=
  norm_list (pad_trunc v dim)

/-- Model of _dot: sum of pointwise products; Python zip truncates to the shorter list. -/
noncomputable def dot (a b : Vec) : ℝ :=
  (List.zipWith (fun x y => x * y) a b).sum

/-- Embedding width (env QJSON_EMBED_DIM, default 768). -/
def DIM : ℕ := 768

/-- Tokens fed to the hashed embedding: t.lower().split() with empties dropped. -/
def hashToks (t : String) : List String :=
  pySplit (pyLower t)

/-- Byte i of a digest, out-of-range reads as 0 (digests always have 32 bytes). -/
def byteAt (d : List ℕ) (i : ℕ) : ℕ :=
  d.getD i 0

/-- Accumulate one word's digest into the feature vector: for k in 0,4,8,12 bump bucket int.from_bytes(d[k:k+2]) mod DIM by plus-or-minus 1 according to bit 0 of d[k+2]. -/
noncomputable def hashWord (v : Vec) (d : List ℕ) : Vec :=
  [0, 4, 8, 12].foldl (fun v k =>
    let idx := (byteAt d k * 256 + byteAt d (k + 1)) % DIM
    let sgn : ℝ := if byteAt d (k + 2) % 2 = 1 then 1 else -1
    v.set idx (v.getD idx 0 + sgn)) v

/-- Raw (pre-normalization) hashed feature vector of _embed_hash: fold the first 512 tokens into a zero vector of width DIM; digest models hashlib.sha256(w).digest(). -/
noncomputable def rawHashVec (digest : String → List ℕ) (t : String) : Vec :=
  ((hashToks t).take 512).foldl (fun v w => hashWord v (digest w)) (List.replicate DIM 0)

/-- Model of _embed_hash on one text: hashed features, L2-normalized. -/
noncomputable def embed_hash (digest : String → List ℕ) (t : String) : Vec :=
  norm_list (rawHashVec digest t)

/-! Fractal store (fmm_store.py). JSON values are modelled by an inductive
type whose objects are insertion-ordered association lists, matching Python
dict order; json.dumps followed by json.loads is the identity on such trees,
so the on-disk file is modelled as holding the parsed tree itself. -/

/-- JSON-like payload and tree values of the fractal store. -/
inductive J where
  | null : J
  | bool : Bool → J
  | num : ℚ → J
  | str : String → J
  | arr : List J → J
  | obj : List (String × J) → J
deriving Inhabited

/-- Nodes of the fractal tree are Python dicts: ordered association lists. -/
abbrev JObj := List (String × J)

/-- Value of a key in a dict, if present. -/
def getChild (l : JObj) (k : String) : Option J :=
  (l.find? (fun p => p.1 == k)).map (fun p => p.2)

/-- Dict update: replace the first binding in place, else append (Python dict assignment keeps the key's original position). -/
def setChild (l : JObj) (k : String) (v : J) : JObj :=
  match l with
  | [] => [(k, v)]
  | (k1, v1) :: rest => if k1 == k then (k, v) :: rest else (k1, v1) :: setChild rest k v

/-- Model of PersistentFractalMemory.insert's tree walk: setdefault each path
part to a fresh dict, then append the payload to the leaf's "__data__" list.
Walking into a non-dict value, or appending to a non-list "__data__", raises
in Python and is modelled as none. -/
def insertPath (node : JObj) : List String → J → Option JObj
  | [], payload =>
    match getChild node "__data__" with
    | none => some (setChild node "__data__" (J.arr [payload]))
    | some (J.arr xs) => some (setChild node "__data__" (J.arr (xs ++ [payload])))
    | some _ => none
  | p :: rest, payload =>
    match (getChild node p).getD (J.obj []) with
    | J.obj sub => (insertPath sub rest payload).map (fun sub1 => setChild node p (J.obj sub1))
    | _ => none

/-- In-process state of a PersistentFractalMemory plus the durable file it
persists to; file = none models a missing fmm.json. -/
structure Fmm where
  tree : JObj
  dirty : Bool
  inserts : ℕ
  since : ℝ
  file : Option JObj

/-- Model of persist(): write the tree to the file only when dirty. -/
def fmmPersist (st : Fmm) : Fmm :=
  if st.dirty then { st with file := some st.tree, dirty := false } else st

/-- Model of a fresh construction reading fmm.json: the stored tree, or an empty dict when the file is missing. -/
def fmmLoadTree (file : Option JObj) : JObj :=
  file.getD []

/-- Model of PersistentFractalMemory.__init__ for a fresh (uncached) instance over a given durable file. -/
def fmmInit (file : Option JObj) (t0 : ℝ) : Fmm :=
  { tree := fmmLoadTree file, dirty := false, inserts := 0, since := t0, file := file }

/-- Model of insert(): grow the tree, mark dirty, bump the insert counter, and flush when the batch size or the debounce interval is reached. -/
noncomputable def fmmInsert (batchSize : ℕ) (flushSec : ℝ) (now : ℝ) (path : List String)
    (payload : J) (st : Fmm) : Option Fmm :=
  match insertPath st.tree path payload with
  | none => none
  | some t =>
    let st1 : Fmm := { st with tree := t, dirty := true, inserts := st.inserts + 1 }
    if st1.inserts ≥ batchSize ∨ now - st1.since ≥ flushSec then
      some { fmmPersist st1 with since := now, inserts := 0 }
    else
      some st1

/-- One insert call: the path, the payload, and the wall-clock time of the call. -/
structure InsertOp where
  path : List String
  payload : J
  now : ℝ

/-- Run a sequence of insert calls against a store, propagating failure. -/
noncomputable def fmmRun (batchSize : ℕ) (flushSec : ℝ) (ops : List InsertOp) (st : Fmm) : Option Fmm :=
  ops.foldlM (fun s op => fmmInsert batchSize flushSec op.now op.path op.payload s) st

/-! Memory table (SQLite memories table) and the IVF index it feeds. -/

/-- One row of the memories table (schema after the fingerprint/freq migration). -/
structure MemRec where
  id : ℕ
  agent : String
  ts : ℝ
  text : String
  meta : String
  vec : Vec
  fp : String
  freq : ℕ
deriving Inhabited

/-- Payload stored under retrieval/ivf/dim{dim}/K{K} by _ivf_write. -/
structure IvfData where
  ts : ℝ
  dim : ℕ
  K : ℕ
  count : ℕ
  centroids : List Vec
  buckets : List (ℕ × List ℕ)
deriving Inhabited

/-- The retrieval/ivf subtree: dim key to (K key to payload), insertion-ordered. -/
abbrev IvfStore := List (ℕ × List (ℕ × IvfData))

/-- First binding of a key in an association list. -/
def aget {α β : Type} [BEq α] (l : List (α × β)) (k : α) : Option β :=
  (l.find? (fun p => p.1 == k)).map (fun p => p.2)

/-- Association-list update: replace the first binding in place, else append. -/
def aset {α β : Type} [BEq α] (l : List (α × β)) (k : α) (v : β) : List (α × β) :=
  match l with
  | [] => [(k, v)]
  | (k1, v1) :: rest => if k1 == k then (k, v) :: rest else (k1, v1) :: aset rest k v

/-- Whole persistent state relevant to retrieval: the memories table (in rowid
order), the rowid counter, and the agent's fractal-store IVF subtree. -/
structure St where
  db : List MemRec
  nextId : ℕ
  ivf : IvfStore

/-- Model of _ivf_read's scan: the first (dim, K, payload) entry whose K is
strictly greater than every earlier one, i.e. the highest K under any dim
(every stored payload has a centroids list). -/
def ivfBest (s : IvfStore) : Option (ℕ × ℕ × IvfData) :=
  s.foldl (fun best dsubs =>
    dsubs.2.foldl (fun b ko =>
      match b with
      | none => some (dsubs.1, ko.1, ko.2)
      | some b0 => if ko.1 > b0.2.1 then some (dsubs.1, ko.1, ko.2) else some b0) best) none

/-- Model of _ivf_read: the payload of the best entry, if any. -/
def ivf_read (s : IvfStore) : Option IvfData :=
  (ivfBest s).map (fun b => b.2.2)

/-- Model of _ivf_write: store the payload under dim and K, replacing any previous payload for that dim and K. -/
def ivf_write (s : IvfStore) (dim K : ℕ) (centroids : List Vec)
    (buckets : List (ℕ × List ℕ)) (ts : ℝ) (count : ℕ) : IvfStore :=
  let subs := (aget s dim).getD []
  aset s dim (aset subs K { ts := ts, dim := dim, K := K, count := count,
                            centroids := centroids, buckets := buckets })

/-- Model of Python max(range(K), key=f): the first index attaining the maximum (ties keep the earlier index); 0 when K = 0 (Python raises there). -/
noncomputable def pyMaxIdx (f : ℕ → ℝ) (K : ℕ) : ℕ :=
  (List.range K).foldl (fun b i => if f b < f i then i else b) 0

/-- The key under a dim node that _ivf_add targets: the first strictly-largest K key. -/
def maxKKey (subs : List (ℕ × IvfData)) : Option ℕ :=
  subs.foldl (fun b ko =>
    match b with
    | none => some ko.1
    | some k0 => if ko.1 > k0 then some ko.1 else some k0) none

/-- Appending a member id to bucket j: start a fresh list when the key is absent (buckets.get(str(j)) not a list), else append. -/
def bucketAppend (buckets : List (ℕ × List ℕ)) (j : ℕ) (memId : ℕ) : List (ℕ × List ℕ) :=
  match aget buckets j with
  | none => aset buckets j [memId]
  | some lst => aset buckets j (lst ++ [memId])

/-- Model of _ivf_add: if an index exists, align the vector to its width,
pick the centroid of maximum dot product, and append the id to that bucket of
the largest-K payload under the index's dim, bumping its count; every failing
lookup leaves the store unchanged (the source returns or swallows there). -/
noncomputable def ivf_add (s : St) (vec : Vec) (memId : ℕ) : St :=
  match ivf_read s.ivf with
  | none => s
  | some idx =>
    let dim := if idx.dim = 0 then vec.length else idx.dim
    let v := align_dim vec dim
    let C := idx.centroids
    if C = [] then s
    else
      let j := pyMaxIdx (fun j => dot v (C.getD j [])) C.length
      match aget s.ivf dim with
      | none => s
      | some subs =>
        match maxKKey subs with
        | none => s
        | some tk =>
          match aget subs tk with
          | none => s
          | some o =>
            let o1 : IvfData := { o with buckets := bucketAppend o.buckets j memId,
                                         count := o.count + 1 }
            { s with ivf := aset s.ivf dim (aset subs tk o1) }

/-- Python "x or default" on an optional float: None and 0.0 both fall back. -/
noncomputable def pyOr (x : Option ℝ) (d : ℝ) : ℝ :=
  match x with
  | none => d
  | some t => if t = 0 then d else t

/-- Model of add_memory: fingerprint upsert. An existing (agent, fingerprint)
row gets its timestamp refreshed and its frequency bumped and its id is
returned; otherwise a fresh row is inserted and opportunistically added to
the IVF index. The embedding backend is the emb parameter. -/
noncomputable def add_memory (emb : String → Vec) (agent text meta : String)
    (ts : Option ℝ) (now : ℝ) (s : St) : ℕ × St :=
  let v := emb text
  let t := pyOr ts now
  let fp := fingerprint text
  match s.db.find? (fun r => r.agent == agent && r.fp == fp) with
  | some r =>
    let f := if r.freq = 0 then 1 else r.freq
    (r.id, { s with db := s.db.map (fun q => if q.id = r.id then { q with ts := t, freq := f + 1 } else q) })
  | none =>
    let mid := s.nextId
    let s1 : St := { s with db := s.db ++ [{ id := mid, agent := agent, ts := t, text := text,
                                             meta := meta, vec := v, fp := fp, freq := 1 }],
                            nextId := s.nextId + 1 }
    (mid, ivf_add s1 v mid)

/-- Model of add_batch: the same per-item upsert-or-insert logic under one
commit; embed maps over the texts one by one; no incremental IVF insertion
happens on this path. -/
noncomputable def add_batch (emb : String → Vec) (agent : String)
    (items : List (String × String × Option ℝ)) (now : ℝ) (s : St) : St :=
  items.foldl (fun st item =>
    let t := item.1
    let m := item.2.1
    let ts := item.2.2
    let v := emb t
    let fp := fingerprint t
    match st.db.find? (fun r => r.agent == agent && r.fp == fp) with
    | some r =>
      let f := if r.freq = 0 then 1 else r.freq
      { st with db := st.db.map (fun q => if q.id = r.id then { q with ts := pyOr ts now, freq := f + 1 } else q) }
    | none =>
      { st with db := st.db ++ [{ id := st.nextId, agent := agent, ts := pyOr ts now, text := t,
                                  meta := m, vec := v, fp := fp, freq := 1 }],
                nextId := st.nextId + 1 }) s

/-! Clustering (_kmeans) and index build. Python's random.randrange and
random.random are modelled by the explicit sources rng (naturals) and rngR
(reals), consumed in call order. -/

/-- Squared euclidean distance (_l2). -/
noncomputable def l2 (a b : Vec) : ℝ :=
  (List.zipWith (fun x y => (x - y) * (x - y)) a b).sum

/-- Index of the centroid of maximum dot product with v, over the first K centroids. -/
noncomputable def assignIdx (v : Vec) (C : List Vec) : ℕ :=
  pyMaxIdx (fun j => dot v (C.getD j [])) C.length

/-- The kmeans++ roulette pick: first index whose running d2 prefix sum reaches r, else 0 (the source's idx default). -/
noncomputable def kppSelect (acc r : ℝ) (i : ℕ) : List ℝ → ℕ
  | [] => 0
  | dv :: rest => if acc + dv ≥ r then i else kppSelect (acc + dv) r (i + 1) rest

/-- Grow the centroid seed list by need further picks (the while-loop of the kmeans++ init). -/
noncomputable def kppGrow (rngR : ℕ → ℝ) (V : List Vec) (C : List Vec) (step : ℕ) : ℕ → List Vec
  | 0 => C
  | need + 1 =>
    let d2 := V.map (fun v => ((C.map (fun c => l2 v c)).min?).getD 0)
    let ssum := if d2.sum = 0 then 1 else d2.sum
    let r := rngR step * ssum
    let idx := kppSelect 0 r 0 d2
    kppGrow rngR V (C ++ [V.getD idx []]) (step + 1) need

/-- One Lloyd iteration: assign every vector to its best of the K centroids, then move each non-empty cluster's centroid to the normalized mean. -/
noncomputable def lloydStep (V : List Vec) (K dim : ℕ) (C : List Vec) : List Vec :=
  let assign := (List.range K).map (fun j =>
    ((List.range V.length).filter (fun i => pyMaxIdx (fun j2 => dot (V.getD i []) (C.getD j2 [])) K == j)))
  (List.range K).map (fun j =>
    let cluster := assign.getD j []
    if cluster = [] then C.getD j []
    else
      let cen := (List.range dim).map (fun d => (cluster.map (fun i => (V.getD i []).getD d 0)).sum)
      norm_list (cen.map (fun x => x / (max 1 cluster.length : ℕ))))

/-- Iterate a function n times. -/
def iterN {α : Type} (f : α → α) : ℕ → α → α
  | 0, a => a
  | n + 1, a => iterN f n (f a)

/-- Model of _kmeans: cap K at the corpus size, seed with kmeans++, run max(1, iters) Lloyd iterations. -/
noncomputable def kmeans (rng : ℕ → ℕ) (rngR : ℕ → ℝ) (V : List Vec) (K iters : ℕ) : List Vec :=
  match V with
  | [] => []
  | v0 :: _ =>
    let n := V.length
    let dim := v0.length
    let K1 := min K n
    let C0 : List Vec := [V.getD (rng 0 % n) []]
    let C1 := kppGrow rngR V C0 0 (K1 - 1)
    iterN (lloydStep V K1 dim) (max 1 iters) C1

/-- Model of _ivf_build: align the agent's vectors to the first row's width,
cluster them, assign each to its best centroid (the loop appends ids bucket
by bucket in row order, which is the per-bucket filter below), and persist
centroids, buckets and the build-time count. -/
noncomputable def ivf_build (rng : ℕ → ℕ) (rngR : ℕ → ℝ) (agent : String) (K iters : ℕ)
    (now : ℝ) (s : St) : St :=
  let recs := s.db.filter (fun r => r.agent == agent)
  match recs with
  | [] => s
  | r0 :: _ =>
    let dim := r0.vec.length
    let V := recs.map (fun r => align_dim r.vec dim)
    let ids := recs.map (fun r => r.id)
    let C := kmeans rng rngR V K iters
    let buckets := (List.range C.length).map (fun j =>
      (j, ((V.zip ids).filter (fun p => assignIdx p.1 C == j)).map (fun p => p.2)))
    { s with ivf := ivf_write s.ivf dim C.length C buckets now V.length }

/-- The rebuild guard of _ivf_maybe_autorebuild. The source's condition reads
idx is None or count < n // 2 and n >= thr, where Python's or binds looser
than and: a missing index triggers for any non-empty corpus, and a stale
count triggers only at or above the threshold. -/
def autorebuildCond (useFmm : Bool) (thr : ℕ) (agent : String) (s : St) : Bool :=
  if useFmm then
    let n := (s.db.filter (fun r => r.agent == agent)).length
    if n = 0 then false
    else
      match ivf_read s.ivf with
      | none => true
      | some idx => decide (idx.count < n / 2) && decide (thr ≤ n)
  else false

/-- Model of _ivf_maybe_autorebuild: rebuild synchronously (iters defaults to 3) exactly when the guard holds. -/
noncomputable def ivf_maybe_autorebuild (useFmm : Bool) (Kenv thr : ℕ) (rng : ℕ → ℕ)
    (rngR : ℕ → ℝ) (agent : String) (now : ℝ) (s : St) : St :=
  if autorebuildCond useFmm thr agent s then ivf_build rng rngR agent Kenv 3 now s else s

/-! Search (search_memory): candidate gathering over the IVF index, exact
similarity on the candidate set or a full scan, and the ranking stages. -/

/-- Insert index i into an already descending-sorted index list, after every index of key at least f i (what a stable descending sort does to a later element). -/
noncomputable def insDesc (f : ℕ → ℝ) (i : ℕ) : List ℕ → List ℕ
  | [] => [i]
  | j :: rest => if f j ≤ f i then i :: j :: rest else j :: insDesc f i rest

/-- Model of Python sorted(indices, key=f, reverse=True): a stable descending sort. -/
noncomputable def sortIdxDesc (f : ℕ → ℝ) (l : List ℕ) : List ℕ :=
  l.foldr (insDesc f) []

/-- Candidate ids gathered by the IVF branch of search_memory: rank all
centroids by dot product with the aligned query, probe the top max(1, nprobe)
buckets, and concatenate their id lists. -/
noncomputable def ivfCandidates (idx : IvfData) (q : Vec) (nprobe : ℕ) : List ℕ :=
  let C := idx.centroids
  let order := (sortIdxDesc (fun j => dot q (C.getD j [])) (List.range C.length)).take (max 1 nprobe)
  order.flatMap (fun j => (aget idx.buckets j).getD [])

/-- One search hit as returned by search_memory. -/
structure Hit where
  id : ℕ
  ts : ℝ
  text : String
  meta : String
  score : ℝ
deriving Inhabited

/-- Tokens used by the hybrid TF-IDF stage: normalized text split on blanks. -/
def toksOf (s : String) : List String :=
  pySplit (normalize_text s)

/-- The TF-IDF re-rank stage of search_memory with hybrid == "tfidf": add
tfidf_weight times the query-document TF-IDF dot product to each similarity.
Dictionary iteration order only permutes commutative real sums, so document
frequencies and weights are expressed directly over the token lists. -/
noncomputable def tfidfBlend (query : String) (w : ℝ) (meta : List MemRec) (sims : List ℝ) : List ℝ :=
  let qtok := toksOf query
  let docToks := meta.map (fun m => toksOf m.text)
  let N := max 1 docToks.length
  let df := fun t => (docToks.filter (fun dt => t ∈ dt)).length
  let idf := fun t => if df t = 0 then 0 else Real.log (((N : ℝ) + 1) / ((df t : ℝ) + 1)) + 1
  let score := fun (dt : List String) =>
    (qtok.dedup.map (fun t => if dt.count t ≠ 0 then ((qtok.count t : ℝ) * idf t) * ((dt.count t : ℝ) * idf t) else 0)).sum
  List.zipWith (fun s dt => s + w * score dt) sims docToks

/-- The recency-decay rule applied per record when time_decay > 0: similarity times exp(-time_decay * age_days). -/
noncomputable def decayScore (timeDecay now ts sim : ℝ) : ℝ :=
  sim * Real.exp (-timeDecay * ((now - ts) / 86400))

/-- The freshness-boost rule applied per record when fresh_boost > 0: add fresh_boost / (1 + exp(age_hours - 1)). -/
noncomputable def freshScore (freshBoost now ts sim : ℝ) : ℝ :=
  sim + freshBoost * (1 / (1 + Real.exp ((now - ts) / 3600 - 1)))

/-- The tail of search_memory shared by every branch: optional TF-IDF blend,
optional decay, optional freshness boost, stable descending sort, top_k cut,
and hit assembly. -/
noncomputable def rankHits (query : String) (topK : ℕ) (timeDecay : ℝ) (hybrid : String)
    (tfidfWeight freshBoost now : ℝ) (meta : List MemRec) (sims : List ℝ) : List Hit :=
  let sims1 := if hybrid = "tfidf" then tfidfBlend query tfidfWeight meta sims else sims
  let sims2 := if timeDecay > 0 then List.zipWith (fun s m => decayScore timeDecay now m.ts s) sims1 meta else sims1
  let sims3 := if freshBoost > 0 then List.zipWith (fun s m => freshScore freshBoost now m.ts s) sims2 meta else sims2
  let order := (sortIdxDesc (fun i => sims3.getD i 0) (List.range sims3.length)).take topK
  order.map (fun i =>
    let m := meta.getD i default
    { id := m.id, ts := m.ts, text := m.text, meta := m.meta, score := sims3.getD i 0 })

/-- The exact-scan fallback of search_memory: empty corpus gives no hits;
otherwise align everything to the first row's width and rank all rows. -/
noncomputable def fullScan (query : String) (topK : ℕ) (timeDecay : ℝ) (hybrid : String)
    (tfidfWeight freshBoost now : ℝ) (recs : List MemRec) (qRaw : Vec) : List Hit :=
  match recs with
  | [] => []
  | r0 :: _ =>
    let dim := r0.vec.length
    let q := align_dim qRaw dim
    rankHits query topK timeDecay hybrid tfidfWeight freshBoost now recs
      (recs.map (fun r => dot (align_dim r.vec dim) q))

/-- Model of search_memory given the already-embedded query vector: probe the
IVF index when enabled and present, restricting exact similarity to the
gathered candidates; fall back to the full scan when the index is absent,
yields no candidates, or its candidates match no rows. -/
noncomputable def searchVec (useIvf : Bool) (nprobe topK : ℕ) (timeDecay : ℝ) (hybrid : String)
    (tfidfWeight freshBoost now : ℝ) (agent query : String) (qRaw : Vec) (s : St) : List Hit :=
  let recs := s.db.filter (fun r => r.agent == agent)
  match (if useIvf then ivf_read s.ivf else none) with
  | none => fullScan query topK timeDecay hybrid tfidfWeight freshBoost now recs qRaw
  | some idx =>
    let dim := if idx.dim = 0 then qRaw.length else idx.dim
    let q := align_dim qRaw dim
    let cand := ivfCandidates idx q nprobe
    if cand = [] then fullScan query topK timeDecay hybrid tfidfWeight freshBoost now recs qRaw
    else
      let rows := recs.filter (fun r => cand.contains r.id)
      if rows.isEmpty then fullScan query topK timeDecay hybrid tfidfWeight freshBoost now recs qRaw
      else rankHits query topK timeDecay hybrid tfidfWeight freshBoost now rows
        (rows.map (fun r => dot (align_dim r.vec dim) q))

/-- Model of search_memory: embed the query with the active backend, then rank. -/
noncomputable def search_memory (emb : String → Vec) (useIvf : Bool) (nprobe topK : ℕ)
    (timeDecay : ℝ) (hybrid : String) (tfidfWeight freshBoost now : ℝ)
    (agent query : String) (s : St) : List Hit :=
  searchVec useIvf nprobe topK timeDecay hybrid tfidfWeight freshBoost now agent query (emb query) s

/-! Supporting lemmas. -/

/-- The normalization divisor is strictly positive for every vector. -/
theorem norm_div_pos (v : Vec) : 0 < norm_div v := by
  have h := Real.sqrt_nonneg (sum_sq v)
  unfold norm_div
  nlinarith

/-- Normalizing an all-zero vector returns it unchanged. -/
theorem norm_list_replicate_zero (n : ℕ) : norm_list (List.replicate n 0) = List.replicate n 0 := by
  simp [norm_list]

/-- A sentence of the claims below packaged as a definition: the spec's own
wording of the auto-rebuild trigger, to be compared with autorebuildCond.
It fires when no index exists and the corpus has reached the threshold, or
when the indexed count has fallen behind half the corpus size. -/
def specAutorebuildCond (thr : ℕ) (agent : String) (s : St) : Prop :=
  let n := (s.db.filter (fun r => r.agent == agent)).length
  (ivf_read s.ivf = none ∧ thr ≤ n) ∨ (∃ idx, ivf_read s.ivf = some idx ∧ idx.count < n / 2)

/-! Claim C9. -/

/-- C9: the deterministic hashed embedding depends only on the first 512
whitespace-separated tokens of the lower-cased text: texts agreeing on those
tokens get identical embedding vectors, for every digest function. -/
theorem C9_embed_hash_first_512_tokens (digest : String → List ℕ) (t1 t2 : String)
    (h : (hashToks t1).take 512 = (hashToks t2).take 512) :
    embed_hash digest t1 = embed_hash digest t2 := by
  unfold embed_hash rawHashVec
  rw [h]

/-- A concrete digest function standing in for sha256 in witnesses. -/
def digest0 : String → List ℕ := fun _ => List.replicate 32 0

/-- Witness for C9 at texts that differ in case and spacing but share their token list. -/
theorem C9_witness :
    (hashToks "A  b").take 512 = (hashToks "a b").take 512 ∧
      embed_hash digest0 "A  b" = embed_hash digest0 "a b" :=
  ⟨by decide, C9_embed_hash_first_512_tokens digest0 "A  b" "a b" (by decide)⟩

/-! Claim C10. -/

/-- C10: the normalization divisor sqrt(sum of squares) + 1e-12 is strictly
positive on every vector, so _norm_list never divides by zero; and a text
with no tokens (blank or whitespace-only) hash-embeds to the all-zero vector
of width DIM, whose norm is 0 rather than 1. -/
theorem C10_norm_total_blank_embeds_zero (digest : String → List ℕ) (t : String) (v : Vec) :
    0 < norm_div v ∧
      (hashToks t = [] →
        embed_hash digest t = List.replicate DIM 0 ∧ sum_sq (embed_hash digest t) = 0) := by
  refine ⟨norm_div_pos v, fun h => ?_⟩
  have hraw : rawHashVec digest t = List.replicate DIM 0 := by
    unfold rawHashVec
    rw [h]
    rfl
  have hemb : embed_hash digest t = List.replicate DIM 0 := by
    unfold embed_hash
    rw [hraw, norm_list_replicate_zero]
  refine ⟨hemb, ?_⟩
  rw [hemb]
  simp [sum_sq]

/-- Witness for C10 at a whitespace-only text. -/
theorem C10_witness :
    embed_hash digest0 "  " = List.replicate DIM 0 ∧ sum_sq (embed_hash digest0 "  ") = 0 :=
  (C10_norm_total_blank_embeds_zero digest0 "  " []).2 (by decide)

/-! Claim C7. -/

/-- C7: with the decay rule score = sim * exp(-time_decay * age_days),
raising the decay rate never raises the older record's score relative to the
newer one: for equal raw similarity s and the older record's timestamp ts1
at most the newer one's ts2, the cross-multiplied relative scores satisfy
old(lam2) * new(lam1) <= old(lam1) * new(lam2) whenever 0 < lam1 <= lam2. -/
theorem C7_decay_monotone_relative (s lam1 lam2 now ts1 ts2 : ℝ)
    (hs : 0 ≤ s) (h1 : 0 < lam1) (h12 : lam1 ≤ lam2) (hts : ts1 ≤ ts2) :
    decayScore lam2 now ts1 s * decayScore lam1 now ts2 s ≤
      decayScore lam1 now ts1 s * decayScore lam2 now ts2 s := by
  unfold decayScore
  have hage : (now - ts2) / 86400 ≤ (now - ts1) / 86400 := by
    apply (div_le_div_right (by norm_num)).mpr
    linarith
  set a1 := (now - ts1) / 86400 with ha1
  set a2 := (now - ts2) / 86400 with ha2
  have key : Real.exp (-lam2 * a1) * Real.exp (-lam1 * a2) ≤
      Real.exp (-lam1 * a1) * Real.exp (-lam2 * a2) := by
    rw [← Real.exp_add, ← Real.exp_add]
    apply Real.exp_le_exp.mpr
    nlinarith [mul_nonneg (sub_nonneg.mpr h12) (sub_nonneg.mpr hage)]
  calc s * Real.exp (-lam2 * a1) * (s * Real.exp (-lam1 * a2))
      = (s * s) * (Real.exp (-lam2 * a1) * Real.exp (-lam1 * a2)) := by ring
    _ ≤ (s * s) * (Real.exp (-lam1 * a1) * Real.exp (-lam2 * a2)) :=
        mul_le_mul_of_nonneg_left key (mul_self_nonneg s)
    _ = s * Real.exp (-lam1 * a1) * (s * Real.exp (-lam2 * a2)) := by ring

/-- Witness for C7 at concrete similarities, decay rates and ages. -/
theorem C7_witness :
    decayScore 2 0 (-86400) 1 * decayScore 1 0 0 1 ≤
      decayScore 1 0 (-86400) 1 * decayScore 2 0 0 1 :=
  C7_decay_monotone_relative 1 1 2 0 (-86400) 0 (by norm_num) (by norm_num)
    (by norm_num) (by norm_num)

/-! Claim C3. -/

/-- A one-record corpus with no index: the code's auto-rebuild fires, the spec's trigger does not. -/
def stC3 : St :=
  { db := [{ id := 1, agent := "a1", ts := 0, text := "x", meta := "{}", vec := [1], fp := "x", freq := 1 }],
    nextId := 2, ivf := [] }

/-- Counterexample to C3: with one stored record (corpus size 1, far below
the default threshold 512) and no index, the code rebuilds, while the
claimed trigger (no index AND corpus at least the threshold, or count fallen
behind half the corpus) is false, refuting that the rebuild never fires
otherwise. -/
theorem C3_counterexample :
    autorebuildCond true 512 "a1" stC3 = true ∧ ¬ specAutorebuildCond 512 "a1" stC3 := by
  constructor
  · rfl
  · simp [specAutorebuildCond, stC3, ivf_read, ivfBest]

/-- C3 amended: the auto-rebuild fires exactly when the FMM path is enabled,
the corpus is non-empty, and either no index exists (regardless of corpus
size) or the indexed count has fallen below half the corpus size with the
corpus at or above the threshold; when it fires it synchronously runs the
build (iters 3), else the state is untouched. -/
theorem C3_amended_autorebuild_trigger (useFmm : Bool) (Kenv thr : ℕ) (rng : ℕ → ℕ)
    (rngR : ℕ → ℝ) (agent : String) (now : ℝ) (s : St) :
    ivf_maybe_autorebuild useFmm Kenv thr rng rngR agent now s
        = (if autorebuildCond useFmm thr agent s then ivf_build rng rngR agent Kenv 3 now s else s)
      ∧ (autorebuildCond useFmm thr agent s = true ↔
          useFmm = true
            ∧ 1 ≤ (s.db.filter (fun r => r.agent == agent)).length
            ∧ (ivf_read s.ivf = none
                ∨ ∃ idx, ivf_read s.ivf = some idx
                    ∧ idx.count < (s.db.filter (fun r => r.agent == agent)).length / 2
                    ∧ thr ≤ (s.db.filter (fun r => r.agent == agent)).length)) := by
  refine ⟨rfl, ?_⟩
  unfold autorebuildCond
  cases useFmm with
  | false => simp
  | true =>
    set n := (s.db.filter (fun r => r.agent == agent)).length with hn
    by_cases h0 : n = 0
    · simp [h0]
    · have h1 : 1 ≤ n := Nat.one_le_iff_ne_zero.mpr h0
      cases hr : ivf_read s.ivf with
      | none => simp [h0, h1]
      | some idx => simp [h0, h1]

/-! Claim C8. -/

/-- A store is synced when, whenever it is clean, its durable file already reconstructs its in-memory tree. -/
def FmmSynced (st : Fmm) : Prop :=
  st.dirty = false → fmmLoadTree st.file = st.tree

/-- Every successful insert preserves syncedness: it either leaves the store dirty or flushes the new tree to the file. -/
theorem fmmInsert_synced {batchSize : ℕ} {flushSec now : ℝ} {path : List String}
    {payload : J} {st st' : Fmm}
    (h : fmmInsert batchSize flushSec now path payload st = some st') :
    FmmSynced st' := by
  unfold fmmInsert at h
  cases hi : insertPath st.tree path payload with
  | none => rw [hi] at h; cases h
  | some t =>
    rw [hi] at h
    simp only [] at h
    by_cases hc : st.inserts + 1 ≥ batchSize ∨ now - st.since ≥ flushSec
    · rw [if_pos hc] at h
      cases h
      intro _
      simp [fmmPersist, fmmLoadTree]
    · rw [if_neg hc] at h
      cases h
      intro hd
      cases hd

/-- Syncedness is preserved along any successful run of inserts. -/
theorem fmmRun_synced {batchSize : ℕ} {flushSec : ℝ} :
    ∀ (ops : List InsertOp) (st st' : Fmm), FmmSynced st →
      fmmRun batchSize flushSec ops st = some st' → FmmSynced st' := by
  intro ops
  induction ops with
  | nil =>
    intro st st' hs h
    cases h
    exact hs
  | cons op ops ih =>
    intro st st' hs h
    rw [fmmRun, List.foldlM_cons] at h
    cases hstep : fmmInsert batchSize flushSec op.now op.path op.payload st with
    | none => rw [hstep] at h; cases h
    | some st1 =>
      rw [hstep] at h
      exact ih st1 st' (fmmInsert_synced hstep) h

/-- C8: starting a fractal store from any durable file and running any
successful sequence of insert calls, after persist() the tree reconstructed
by a fresh construction from the file equals the in-memory tree exactly
(same paths, same data sequences in insertion order). -/
theorem C8_persist_roundtrip (batchSize : ℕ) (flushSec t0 : ℝ) (file0 : Option JObj)
    (ops : List InsertOp) (st1 : Fmm)
    (h : fmmRun batchSize flushSec ops (fmmInit file0 t0) = some st1) :
    fmmLoadTree (fmmPersist st1).file = (fmmPersist st1).tree := by
  have hs : FmmSynced st1 :=
    fmmRun_synced ops (fmmInit file0 t0) st1 (fun _ => rfl) h
  unfold fmmPersist
  cases hd : st1.dirty with
  | false => simpa [hd] using hs hd
  | true => simp [fmmLoadTree]

/-- The single insert of the C8 witness run. -/
def opW : InsertOp := { path := ["a"], payload := J.str "x", now := 0 }

/-- The store state reached by the C8 witness run. -/
def stW : Fmm :=
  { tree := [("a", J.obj [("__data__", J.arr [J.str "x"])])],
    dirty := true, inserts := 1, since := 0, file := none }

/-- Witness for C8: one concrete insert into a fresh store, then persist and reload. -/
theorem C8_witness : fmmLoadTree (fmmPersist stW).file = (fmmPersist stW).tree :=
  C8_persist_roundtrip 10 2 0 none [opW] stW (by
    rw [fmmRun, List.foldlM_cons]
    have h1 : fmmInsert 10 2 opW.now opW.path opW.payload (fmmInit none 0) = some stW := by
      unfold fmmInsert
      have hi : insertPath (fmmInit none 0).tree opW.path opW.payload
          = some stW.tree := by rfl
      rw [hi]
      simp only [fmmInit, opW, fmmLoadTree]
      rw [if_neg ?_]
      · rfl
      · rintro (h | h)
        · omega
        · norm_num at h
    rw [h1]
    rfl)

/-! Claim C1. -/

/-- The predicate of the upsert lookup: same agent and same fingerprint. -/
def fpPred (agent fp : String) : MemRec → Bool :=
  fun r => r.agent == agent && r.fp == fp

/-- The row found by the upsert lookup, if any (SELECT ... LIMIT 1). -/
def fpRow (db : List MemRec) (agent fp : String) : Option MemRec :=
  db.find? (fpPred agent fp)

/-- Number of stored rows for an (agent, fingerprint) pair. -/
def fpCount (db : List MemRec) (agent fp : String) : ℕ :=
  (db.filter (fpPred agent fp)).length

/-- Stored frequency of the row of an (agent, fingerprint) pair, if any. -/
def fpFreq (db : List MemRec) (agent fp : String) : Option ℕ :=
  (fpRow db agent fp).map (fun r => r.freq)

/-- The UPDATE of the upsert branch: refresh ts and set freq on the row with the given id. -/
def updRow (rid : ℕ) (t : ℝ) (f : ℕ) : MemRec → MemRec :=
  fun q => if q.id = rid then { q with ts := t, freq := f } else q

/-- The row inserted by the fresh branch of add_memory. -/
def freshRow (agent text meta : String) (t : ℝ) (v : Vec) (mid : ℕ) : MemRec :=
  { id := mid, agent := agent, ts := t, text := text, meta := meta,
    vec := v, fp := fingerprint text, freq := 1 }

/-- The best-effort IVF insert never touches the memories table or the id counter. -/
theorem ivf_add_frame (s : St) (v : Vec) (m : ℕ) :
    (ivf_add s v m).db = s.db ∧ (ivf_add s v m).nextId = s.nextId := by
  constructor
  · unfold ivf_add
    dsimp only []
    repeat' split
    all_goals rfl
  · unfold ivf_add
    dsimp only []
    repeat' split
    all_goals rfl

/-- Updating ts and freq of a row changes neither its agent nor its fingerprint. -/
theorem fpPred_updRow (agent fp : String) (rid : ℕ) (t : ℝ) (f : ℕ) (q : MemRec) :
    fpPred agent fp (updRow rid t f q) = fpPred agent fp q := by
  unfold fpPred updRow
  by_cases h : q.id = rid <;> simp [h]

/-- Behavior of add_memory when the (agent, fingerprint) row exists: return its id and map the UPDATE over the table. -/
theorem add_memory_found (emb : String → Vec) (agent text meta : String) (ts : Option ℝ)
    (now : ℝ) (s : St) (r : MemRec) (h : fpRow s.db agent (fingerprint text) = some r) :
    add_memory emb agent text meta ts now s
      = (r.id, { s with db := s.db.map (updRow r.id (pyOr ts now) ((if r.freq = 0 then 1 else r.freq) + 1)) }) := by
  unfold add_memory
  dsimp only []
  rw [show List.find? (fun r : MemRec => r.agent == agent && r.fp == fingerprint text) s.db = some r from h]
  rfl

/-- Behavior of add_memory when no (agent, fingerprint) row exists: append a fresh row (the IVF side step leaves the table alone) and return the new id. -/
theorem add_memory_fresh (emb : String → Vec) (agent text meta : String) (ts : Option ℝ)
    (now : ℝ) (s : St) (h : fpRow s.db agent (fingerprint text) = none) :
    (add_memory emb agent text meta ts now s).1 = s.nextId
      ∧ (add_memory emb agent text meta ts now s).2.db
          = s.db ++ [freshRow agent text meta (pyOr ts now) (emb text) s.nextId] := by
  unfold add_memory
  dsimp only []
  rw [show List.find? (fun r : MemRec => r.agent == agent && r.fp == fingerprint text) s.db = none from h]
  refine ⟨rfl, ?_⟩
  rw [(ivf_add_frame _ _ _).1]
  rfl

/-- The fingerprint row after the UPDATE map: the same row, updated. -/
theorem fpRow_map_updRow (db : List MemRec) (agent fp : String) (r : MemRec) (t : ℝ) (f : ℕ)
    (h : fpRow db agent fp = some r) :
    fpRow (db.map (updRow r.id t f)) agent fp = some { r with ts := t, freq := f } := by
  unfold fpRow at h ⊢
  rw [List.find?_map, show fpPred agent fp ∘ updRow r.id t f = fpPred agent fp from funext (fpPred_updRow agent fp r.id t f), h]
  simp [updRow]

/-- The UPDATE map preserves the number of rows of every (agent, fingerprint) pair. -/
theorem fpCount_map_updRow (db : List MemRec) (agent fp : String) (rid : ℕ) (t : ℝ) (f : ℕ) :
    fpCount (db.map (updRow rid t f)) agent fp = fpCount db agent fp := by
  unfold fpCount
  rw [List.filter_map, show fpPred agent fp ∘ updRow rid t f = fpPred agent fp from funext (fpPred_updRow agent fp rid t f)]
  simp

/-- A found fingerprint row means at least one stored row for the pair. -/
theorem fpCount_pos_of_fpRow (db : List MemRec) (agent fp : String) (r : MemRec)
    (h : fpRow db agent fp = some r) : 1 ≤ fpCount db agent fp := by
  unfold fpRow at h
  unfold fpCount
  have hmem : r ∈ db.filter (fpPred agent fp) :=
    List.mem_filter.mpr ⟨List.mem_of_find?_eq_some h, List.find?_some h⟩
  exact List.length_pos.mpr (fun hnil => by rw [hnil] at hmem; cases hmem)

/-- No fingerprint row means no stored row for the pair. -/
theorem fpCount_zero_of_fpRow_none (db : List MemRec) (agent fp : String)
    (h : fpRow db agent fp = none) : fpCount db agent fp = 0 := by
  unfold fpRow at h
  unfold fpCount
  rw [List.length_eq_zero]
  exact List.filter_eq_nil_iff.mpr (fun a ha => by
    simpa using List.find?_eq_none.mp h a ha)

/-- The freshly inserted row matches its own (agent, fingerprint) lookup. -/
theorem fpPred_freshRow (agent text meta : String) (t : ℝ) (v : Vec) (mid : ℕ) :
    fpPred agent (fingerprint text) (freshRow agent text meta t v mid) = true := by
  simp [fpPred, freshRow]

/-- Combined effect of an add_memory call that finds its fingerprint row (with a sane stored frequency): same id back, same row counts, frequency bumped by exactly one. -/
theorem add_memory_upsert_effect (emb : String → Vec) (agent text meta : String) (ts : Option ℝ)
    (now : ℝ) (s : St) (r : MemRec) (h : fpRow s.db agent (fingerprint text) = some r)
    (hf : 1 ≤ r.freq) :
    (add_memory emb agent text meta ts now s).1 = r.id
      ∧ fpCount (add_memory emb agent text meta ts now s).2.db agent (fingerprint text)
          = fpCount s.db agent (fingerprint text)
      ∧ (add_memory emb agent text meta ts now s).2.db.length = s.db.length
      ∧ fpRow (add_memory emb agent text meta ts now s).2.db agent (fingerprint text)
          = some { r with ts := pyOr ts now, freq := r.freq + 1 } := by
  have heq := add_memory_found emb agent text meta ts now s r h
  have hif : (if r.freq = 0 then 1 else r.freq) = r.freq := by
    rw [if_neg (Nat.pos_iff_ne_zero.mp hf)]
  rw [hif] at heq
  rw [heq]
  exact ⟨rfl, fpCount_map_updRow s.db agent (fingerprint text) r.id _ _, by simp,
    fpRow_map_updRow s.db agent (fingerprint text) r _ _ h⟩

/-- Combined effect of an add_memory call that finds no fingerprint row: the new id back, exactly one row for the pair afterwards, stored with frequency 1. -/
theorem add_memory_fresh_effect (emb : String → Vec) (agent text meta : String) (ts : Option ℝ)
    (now : ℝ) (s : St) (h : fpRow s.db agent (fingerprint text) = none) :
    (add_memory emb agent text meta ts now s).1 = s.nextId
      ∧ fpCount (add_memory emb agent text meta ts now s).2.db agent (fingerprint text) = 1
      ∧ fpRow (add_memory emb agent text meta ts now s).2.db agent (fingerprint text)
          = some (freshRow agent text meta (pyOr ts now) (emb text) s.nextId) := by
  have heq := add_memory_fresh emb agent text meta ts now s h
  refine ⟨heq.1, ?_, ?_⟩
  · have h0 : fpCount s.db agent (fingerprint text) = 0 := fpCount_zero_of_fpRow_none _ _ _ h
    unfold fpCount at h0 ⊢
    rw [heq.2, List.filter_append, List.length_append, h0]
    simp [fpPred_freshRow]
  · unfold fpRow at h ⊢
    rw [heq.2, List.find?_append, h]
    simp [fpPred_freshRow]

/-- C1: two add_memory calls whose texts normalize to the same fingerprint
return the same id, leave exactly one row for the (agent, fingerprint) pair,
bump that row's frequency by exactly 1 on the repeated call (no new row, no
new vector), and when the pair was absent beforehand the final frequency is
exactly 2. The hypotheses are the table invariants: at most one row per
(agent, fingerprint), and stored frequencies at least 1. -/
theorem C1_idempotent_upsert (emb : String → Vec) (agent t1 t2 meta1 meta2 : String)
    (ts1 ts2 : Option ℝ) (now1 now2 : ℝ) (s : St)
    (hnorm : normalize_text t1 = normalize_text t2)
    (huniq : fpCount s.db agent (fingerprint t1) ≤ 1)
    (hfreq : ∀ r ∈ s.db, 1 ≤ r.freq) :
    (add_memory emb agent t2 meta2 ts2 now2 (add_memory emb agent t1 meta1 ts1 now1 s).2).1
        = (add_memory emb agent t1 meta1 ts1 now1 s).1
      ∧ fpCount (add_memory emb agent t2 meta2 ts2 now2 (add_memory emb agent t1 meta1 ts1 now1 s).2).2.db
            agent (fingerprint t1) = 1
      ∧ (add_memory emb agent t2 meta2 ts2 now2 (add_memory emb agent t1 meta1 ts1 now1 s).2).2.db.length
          = (add_memory emb agent t1 meta1 ts1 now1 s).2.db.length
      ∧ (∃ f1, fpFreq (add_memory emb agent t1 meta1 ts1 now1 s).2.db agent (fingerprint t1) = some f1
          ∧ fpFreq (add_memory emb agent t2 meta2 ts2 now2 (add_memory emb agent t1 meta1 ts1 now1 s).2).2.db
              agent (fingerprint t1) = some (f1 + 1))
      ∧ (fpCount s.db agent (fingerprint t1) = 0 →
          fpFreq (add_memory emb agent t2 meta2 ts2 now2 (add_memory emb agent t1 meta1 ts1 now1 s).2).2.db
              agent (fingerprint t1) = some 2) := by
  have hfp : fingerprint t2 = fingerprint t1 :=
    (show fingerprint t1 = fingerprint t2 from hnorm).symm
  cases hrow : fpRow s.db agent (fingerprint t1) with
  | some r =>
    have hf : 1 ≤ r.freq :=
      hfreq r (List.mem_of_find?_eq_some (show s.db.find? _ = some r from hrow))
    have h1 := add_memory_upsert_effect emb agent t1 meta1 ts1 now1 s r hrow hf
    set r1 : MemRec := { r with ts := pyOr ts1 now1, freq := r.freq + 1 } with hr1
    have hrow1 : fpRow (add_memory emb agent t1 meta1 ts1 now1 s).2.db agent (fingerprint t2)
        = some r1 := by rw [hfp]; exact h1.2.2.2
    have h2 := add_memory_upsert_effect emb agent t2 meta2 ts2 now2
      (add_memory emb agent t1 meta1 ts1 now1 s).2 r1 hrow1 (by simp [hr1])
    have hcnt : fpCount s.db agent (fingerprint t1) = 1 :=
      Nat.le_antisymm huniq (fpCount_pos_of_fpRow s.db agent (fingerprint t1) r hrow)
    refine ⟨?_, ?_, ?_, ?_, ?_⟩
    · rw [h2.1, h1.1]
    · rw [show fingerprint t1 = fingerprint t2 from hnorm] at h1 hcnt ⊢
      rw [h2.2.1, h1.2.1, hcnt]
    · exact h2.2.2.1
    · refine ⟨r.freq + 1, ?_, ?_⟩
      · exact (congrArg (Option.map (fun q => q.freq)) h1.2.2.2).trans rfl
      · rw [show fingerprint t1 = fingerprint t2 from hnorm]
        exact (congrArg (Option.map (fun q => q.freq)) h2.2.2.2).trans rfl
    · intro h0
      have := fpCount_pos_of_fpRow s.db agent (fingerprint t1) r hrow
      omega
  | none =>
    have h1 := add_memory_fresh_effect emb agent t1 meta1 ts1 now1 s hrow
    set r1 : MemRec := freshRow agent t1 meta1 (pyOr ts1 now1) (emb t1) s.nextId with hr1
    have hrow1 : fpRow (add_memory emb agent t1 meta1 ts1 now1 s).2.db agent (fingerprint t2)
        = some r1 := by rw [hfp]; exact h1.2.2
    have h2 := add_memory_upsert_effect emb agent t2 meta2 ts2 now2
      (add_memory emb agent t1 meta1 ts1 now1 s).2 r1 hrow1 (by simp [hr1, freshRow])
    refine ⟨?_, ?_, ?_, ?_, ?_⟩
    · rw [h2.1, h1.1, hr1]
      rfl
    · rw [show fingerprint t1 = fingerprint t2 from hnorm] at h1 ⊢
      rw [h2.2.1, h1.2.1]
    · exact h2.2.2.1
    · refine ⟨1, ?_, ?_⟩
      · exact (congrArg (Option.map (fun q => q.freq)) h1.2.2).trans rfl
      · rw [show fingerprint t1 = fingerprint t2 from hnorm]
        exact (congrArg (Option.map (fun q => q.freq)) h2.2.2.2).trans rfl
    · intro _
      rw [show fingerprint t1 = fingerprint t2 from hnorm]
      exact (congrArg (Option.map (fun q => q.freq)) h2.2.2.2).trans rfl

/-- An empty initial table for the C1 witness. -/
def stEmpty : St := { db := [], nextId := 0, ivf := [] }

/-- Witness for C1: the very scenario of the spec, adding the same text twice into an empty table. -/
theorem C1_witness :
    (add_memory (fun _ => []) "a1" "x" "{}" none 0
        (add_memory (fun _ => []) "a1" "x" "{}" none 0 stEmpty).2).1
      = (add_memory (fun _ => []) "a1" "x" "{}" none 0 stEmpty).1 :=
  (C1_idempotent_upsert (fun _ => []) "a1" "x" "x" "{}" "{}" none none 0 0 stEmpty
    rfl (by decide) (by intro r hr; cases hr)).1

/-! Claim C5: the build partitions the ids over the buckets. -/

/-- A Lloyd iteration returns exactly K centroids. -/
theorem lloydStep_length (V : List Vec) (K dim : ℕ) (C : List Vec) :
    (lloydStep V K dim C).length = K := by
  simp [lloydStep]

/-- At least one Lloyd iteration pins the centroid count at K. -/
theorem iterN_lloydStep_length (V : List Vec) (K dim : ℕ) :
    ∀ (m : ℕ) (C : List Vec), (iterN (lloydStep V K dim) (m + 1) C).length = K := by
  intro m
  induction m with
  | zero => intro C; rw [iterN, iterN]; exact lloydStep_length V K dim C
  | succ m ih => intro C; rw [iterN]; exact ih (lloydStep V K dim C)

/-- The clustering returns min K n centroids on a non-empty corpus. -/
theorem kmeans_length (rng : ℕ → ℕ) (rngR : ℕ → ℝ) (V : List Vec) (K iters : ℕ)
    (h : V ≠ []) : (kmeans rng rngR V K iters).length = min K V.length := by
  cases V with
  | nil => exact absurd rfl h
  | cons v0 V2 =>
    obtain ⟨m, hm⟩ : ∃ m, max 1 iters = m + 1 := ⟨max 1 iters - 1, by omega⟩
    unfold kmeans
    dsimp only []
    rw [hm]
    exact iterN_lloydStep_length _ _ _ m _

/-- A fold keeping the best-so-far index lands on the start or on a visited index. -/
theorem foldl_pick_mem (f : ℕ → ℝ) :
    ∀ (l : List ℕ) (b : ℕ),
      l.foldl (fun b i => if f b < f i then i else b) b = b
        ∨ l.foldl (fun b i => if f b < f i then i else b) b ∈ l := by
  intro l
  induction l with
  | nil => intro b; exact Or.inl rfl
  | cons i l ih =>
    intro b
    rw [List.foldl_cons]
    rcases ih (if f b < f i then i else b) with h | h
    · rw [h]
      by_cases hc : f b < f i
      · rw [if_pos hc]; exact Or.inr (List.mem_cons_self i l)
      · rw [if_neg hc]; exact Or.inl rfl
    · exact Or.inr (List.mem_cons_of_mem i h)

/-- Python max over range(K) (K at least 1) picks an index below K. -/
theorem pyMaxIdx_lt (f : ℕ → ℝ) (K : ℕ) (hK : 1 ≤ K) : pyMaxIdx f K < K := by
  unfold pyMaxIdx
  rcases foldl_pick_mem f (List.range K) 0 with h | h
  · rw [h]; omega
  · exact List.mem_range.mp h

/-- The centroid assignment always lands below the centroid count. -/
theorem assignIdx_lt (v : Vec) (C : List Vec) (hC : C ≠ []) : assignIdx v C < C.length :=
  pyMaxIdx_lt _ _ (List.length_pos.mpr hC)

/-- Sums of a function over List.range agree with the Finset.range sum. -/
theorem list_range_map_sum {M : Type} [AddCommMonoid M] (g : ℕ → M) (K : ℕ) :
    ((List.range K).map g).sum = ∑ j ∈ Finset.range K, g j := by
  induction K with
  | zero => simp
  | succ n ih =>
    rw [List.range_succ, List.map_append, List.sum_append, Finset.sum_range_succ, ih]
    simp

/-- Distributing a count over the classes of a classifier: summing, over the
classes below K, the elements of class j satisfying q counts exactly the
elements satisfying q whose class is below K. -/
theorem sum_range_countP {α : Type} (q : α → Bool) (f : α → ℕ) :
    ∀ (l : List α) (K : ℕ),
      (∑ j ∈ Finset.range K, l.countP (fun a => q a && (f a == j)))
        = l.countP (fun a => q a && decide (f a < K)) := by
  intro l
  induction l with
  | nil => intro K; simp
  | cons a l ih =>
    intro K
    simp only [List.countP_cons, Finset.sum_add_distrib, ih]
    congr 1
    by_cases hq : q a
    · simp only [hq, Bool.true_and, beq_iff_eq]
      rw [Finset.sum_ite_eq (Finset.range K) (f a) (fun _ => 1)]
      simp [Finset.mem_range]
    · simp [hq]

/-- Every length-1 list membership for aget after aset at the same key. -/
theorem aget_aset_self {α β : Type} [BEq α] [LawfulBEq α] (l : List (α × β)) (k : α) (v : β) :
    aget (aset l k v) k = some v := by
  induction l with
  | nil => simp [aset, aget]
  | cons p l ih =>
    obtain ⟨k1, v1⟩ := p
    unfold aset
    by_cases h : k1 == k
    · rw [if_pos h]
      simp [aget]
    · rw [if_neg h]
      unfold aget at ih ⊢
      rw [List.find?_cons_of_neg _ (by simpa using h)]
      exact ih

/-- C5: after _ivf_build over a non-empty agent corpus with distinct row ids
and K at least 1, the index stored for the build's dimension and cluster
count has every record id in exactly one bucket exactly once, bucket sizes
summing to the corpus size n, which is also the stored count. -/
theorem C5_build_partitions_ids (rng : ℕ → ℕ) (rngR : ℕ → ℝ) (agent : String)
    (K iters : ℕ) (now : ℝ) (s : St) (hK : 1 ≤ K)
    (hne : s.db.filter (fun r => r.agent == agent) ≠ [])
    (hnodup : ((s.db.filter (fun r => r.agent == agent)).map (fun r => r.id)).Nodup) :
    ∃ dim Kc data,
      aget ((aget (ivf_build rng rngR agent K iters now s).ivf dim).getD []) Kc = some data
        ∧ data.count = (s.db.filter (fun r => r.agent == agent)).length
        ∧ (data.buckets.map (fun b => b.2.length)).sum
            = (s.db.filter (fun r => r.agent == agent)).length
        ∧ ∀ mid ∈ (s.db.filter (fun r => r.agent == agent)).map (fun r => r.id),
            (data.buckets.map (fun b => b.2.count mid)).sum = 1 := by
  cases hrecs : s.db.filter (fun r => r.agent == agent) with
  | nil => exact absurd hrecs hne
  | cons r0 rest =>
    have hbuild :
        (ivf_build rng rngR agent K iters now s).ivf
          = ivf_write s.ivf r0.vec.length
              (kmeans rng rngR ((r0 :: rest).map (fun r => align_dim r.vec r0.vec.length)) K iters).length
              (kmeans rng rngR ((r0 :: rest).map (fun r => align_dim r.vec r0.vec.length)) K iters)
              ((List.range (kmeans rng rngR ((r0 :: rest).map (fun r => align_dim r.vec r0.vec.length)) K iters).length).map
                (fun j =>
                  (j, ((((r0 :: rest).map (fun r => align_dim r.vec r0.vec.length)).zip ((r0 :: rest).map (fun r => r.id))).filter
                        (fun p => assignIdx p.1 (kmeans rng rngR ((r0 :: rest).map (fun r => align_dim r.vec r0.vec.length)) K iters) == j)).map
                      (fun p => p.2))))
              now ((r0 :: rest).map (fun r => align_dim r.vec r0.vec.length)).length := by
      unfold ivf_build
      rw [hrecs]
    set V := (r0 :: rest).map (fun r => align_dim r.vec r0.vec.length) with hV
    set ids := (r0 :: rest).map (fun r => r.id) with hids
    set C := kmeans rng rngR V K iters with hC
    have hVlen : V.length = (r0 :: rest).length := by rw [hV, List.length_map]
    have hidslen : ids.length = (r0 :: rest).length := by rw [hids, List.length_map]
    have hClen : C.length = min K V.length := kmeans_length rng rngR V K iters (by
      rw [hV]; simp)
    have hCpos : 1 ≤ C.length := by
      rw [hClen, hVlen]
      simp only [List.length_cons]
      omega
    have hCne : C ≠ [] := by
      intro h
      rw [h] at hCpos
      simp at hCpos
    have hziplen : (V.zip ids).length = (r0 :: rest).length := by
      rw [List.length_zip, hVlen, hidslen, Nat.min_self]
    refine ⟨r0.vec.length, C.length,
      { ts := now, dim := r0.vec.length, K := C.length, count := V.length, centroids := C,
        buckets := (List.range C.length).map
          (fun j => (j, ((V.zip ids).filter (fun p => assignIdx p.1 C == j)).map (fun p => p.2))) },
      ?_, ?_, ?_, ?_⟩
    · rw [hbuild]
      unfold ivf_write
      rw [aget_aset_self]
      simp only [Option.getD_some]
      rw [aget_aset_self]
    · exact hVlen
    · dsimp only []
      rw [List.map_map]
      have hcomp :
          ((fun b : ℕ × List ℕ => b.2.length) ∘ fun j =>
              (j, ((V.zip ids).filter (fun p => assignIdx p.1 C == j)).map (fun p => p.2)))
            = fun j => (V.zip ids).countP (fun p => (fun _ => true) p && (assignIdx p.1 C == j)) := by
        funext j
        simp [List.countP_eq_length_filter]
      rw [hcomp, list_range_map_sum, sum_range_countP]
      have hall : (fun p : Vec × ℕ => (fun _ => true) p && decide (assignIdx p.1 C < C.length))
          = fun _ => true := by
        funext p
        simp [assignIdx_lt p.1 C hCne]
      rw [hall]
      rw [List.countP_true, hziplen]
    · intro mid hmid
      rw [hrecs] at hnodup
      dsimp only []
      rw [List.map_map]
      have hcomp :
          ((fun b : ℕ × List ℕ => b.2.count mid) ∘ fun j =>
              (j, ((V.zip ids).filter (fun p => assignIdx p.1 C == j)).map (fun p => p.2)))
            = fun j => (V.zip ids).countP (fun p => (p.2 == mid) && (assignIdx p.1 C == j)) := by
        funext j
        show (((V.zip ids).filter (fun p => assignIdx p.1 C == j)).map (fun p => p.2)).countP
            (fun x => x == mid) = _
        rw [List.countP_map, List.countP_filter]
        rfl
      rw [hcomp, list_range_map_sum, sum_range_countP]
      have hall : (fun p : Vec × ℕ => (p.2 == mid) && decide (assignIdx p.1 C < C.length))
          = fun p => p.2 == mid := by
        funext p
        simp [assignIdx_lt p.1 C hCne]
      rw [hall]
      have hsnd : (V.zip ids).countP (fun p => p.2 == mid)
          = ((V.zip ids).map Prod.snd).countP (fun x => x == mid) :=
        (List.countP_map (fun x => x == mid) Prod.snd (V.zip ids)).symm
      rw [hsnd, List.map_snd_zip V ids (by rw [hVlen, hidslen])]
      exact List.count_eq_one_of_mem hnodup (by rw [hids]; exact hmid)

/-- Witness for C5: a concrete one-record corpus, K = 8, 3 iterations. -/
theorem C5_witness :
    ∃ dim Kc data,
      aget ((aget (ivf_build (fun _ => 0) (fun _ => 0) "a1" 8 3 0 stC3).ivf dim).getD []) Kc
          = some data
        ∧ data.count = (stC3.db.filter (fun r => r.agent == "a1")).length
        ∧ (data.buckets.map (fun b => b.2.length)).sum
            = (stC3.db.filter (fun r => r.agent == "a1")).length
        ∧ ∀ mid ∈ (stC3.db.filter (fun r => r.agent == "a1")).map (fun r => r.id),
            (data.buckets.map (fun b => b.2.count mid)).sum = 1 :=
  C5_build_partitions_ids (fun _ => 0) (fun _ => 0) "a1" 8 3 0 stC3 (by norm_num)
    (by simp [stC3]) (by simp [stC3])

/-! Claim C2: incremental insert happens on add_memory, not on add_batch. -/

/-- Stable insertion keeps every element. -/
theorem insDesc_mem (f : ℕ → ℝ) (i x : ℕ) :
    ∀ l : List ℕ, x ∈ insDesc f i l ↔ x = i ∨ x ∈ l := by
  intro l
  induction l with
  | nil => simp [insDesc]
  | cons j l ih =>
    unfold insDesc
    by_cases h : f j ≤ f i
    · rw [if_pos h]
      simp [or_comm, or_assoc, or_left_comm]
    · rw [if_neg h]
      simp only [List.mem_cons, ih]
      tauto

/-- Stable insertion grows the length by one. -/
theorem insDesc_length (f : ℕ → ℝ) (i : ℕ) :
    ∀ l : List ℕ, (insDesc f i l).length = l.length + 1 := by
  intro l
  induction l with
  | nil => rfl
  | cons j l ih =>
    unfold insDesc
    by_cases h : f j ≤ f i
    · rw [if_pos h]; rfl
    · rw [if_neg h]
      simp [ih]

/-- The stable descending sort keeps exactly the input indices. -/
theorem sortIdxDesc_mem (f : ℕ → ℝ) (x : ℕ) :
    ∀ l : List ℕ, x ∈ sortIdxDesc f l ↔ x ∈ l := by
  intro l
  induction l with
  | nil => simp [sortIdxDesc]
  | cons j l ih =>
    unfold sortIdxDesc at ih ⊢
    rw [List.foldr_cons, insDesc_mem, ih]
    simp

/-- The stable descending sort preserves the length. -/
theorem sortIdxDesc_length (f : ℕ → ℝ) :
    ∀ l : List ℕ, (sortIdxDesc f l).length = l.length := by
  intro l
  induction l with
  | nil => rfl
  | cons j l ih =>
    unfold sortIdxDesc at ih ⊢
    rw [List.foldr_cons, insDesc_length, ih]
    rfl

/-- The id appended by the incremental insert lands in bucket j. -/
theorem bucketAppend_mem (buckets : List (ℕ × List ℕ)) (j memId : ℕ) :
    memId ∈ (aget (bucketAppend buckets j memId) j).getD [] := by
  unfold bucketAppend
  cases h : aget buckets j with
  | none => rw [aget_aset_self]; simp
  | some lst => rw [aget_aset_self]; simp

/-- A search probing at least as many buckets as there are centroids gathers every id of every bucket below the centroid count. -/
theorem ivfCandidates_mem (idx : IvfData) (q : Vec) (nprobe : ℕ) (j memId : ℕ)
    (hj : j < idx.centroids.length) (hnp : idx.centroids.length ≤ nprobe)
    (hmem : memId ∈ (aget idx.buckets j).getD []) :
    memId ∈ ivfCandidates idx q nprobe := by
  unfold ivfCandidates
  dsimp only []
  rw [List.take_of_length_le (by
    rw [sortIdxDesc_length, List.length_range]
    omega)]
  exact List.mem_flatMap.mpr
    ⟨j, (sortIdxDesc_mem _ _ _).mpr (List.mem_range.mpr hj), hmem⟩

/-- Each add_batch step (upsert or insert) never touches the IVF store. -/
theorem add_batch_ivf_frame (emb : String → Vec) (agent : String) :
    ∀ (items : List (String × String × Option ℝ)) (now : ℝ) (s : St),
      (add_batch emb agent items now s).ivf = s.ivf := by
  intro items
  induction items with
  | nil => intro now s; rfl
  | cons it items ih =>
    intro now s
    unfold add_batch at ih ⊢
    rw [List.foldl_cons]
    rw [ih]
    cases it.2.2 <;> cases h : s.db.find? (fun r => r.agent == agent && r.fp == fingerprint it.1) <;>
      simp only [h]

/-- Exact equation of a fresh add_memory call: the tuple it returns. -/
theorem add_memory_fresh_eq (emb : String → Vec) (agent text meta : String) (ts : Option ℝ)
    (now : ℝ) (s : St) (h : fpRow s.db agent (fingerprint text) = none) :
    add_memory emb agent text meta ts now s
      = (s.nextId,
          ivf_add { s with db := s.db ++ [freshRow agent text meta (pyOr ts now) (emb text) s.nextId],
                           nextId := s.nextId + 1 }
            (emb text) s.nextId) := by
  unfold add_memory
  dsimp only []
  rw [show List.find? (fun r : MemRec => r.agent == agent && r.fp == fingerprint text) s.db = none from h]
  rfl

/-- C2 (amended): with an IVF index stored for the agent, a record newly
inserted by add_memory has its vector aligned to the index width, is assigned
to the centroid of maximum dot product, and its id is appended in place to
that centroid's bucket, with the centroids untouched and the count bumped; a
search probing all K buckets of the updated index then gathers the new id for
any query, with no rebuild. add_batch, by contrast, never writes to the index. -/
theorem C2_incremental_insert_add_memory_only (emb : String → Vec) (agent text meta : String)
    (ts : Option ℝ) (now : ℝ) (s : St) (d0 k0 : ℕ) (o : IvfData)
    (hstore : s.ivf = [(d0, [(k0, o)])])
    (hdim : o.dim = d0) (hd0 : o.dim ≠ 0) (hC : o.centroids ≠ [])
    (hfp : fpRow s.db agent (fingerprint text) = none) :
    (add_memory emb agent text meta ts now s).1 = s.nextId
      ∧ (add_memory emb agent text meta ts now s).2.ivf
          = [(d0, [(k0, { o with
                buckets := bucketAppend o.buckets
                  (assignIdx (align_dim (emb text) d0) o.centroids) s.nextId,
                count := o.count + 1 })])]
      ∧ s.nextId ∈ (aget (bucketAppend o.buckets
            (assignIdx (align_dim (emb text) d0) o.centroids) s.nextId)
          (assignIdx (align_dim (emb text) d0) o.centroids)).getD []
      ∧ (∀ (q : Vec) (nprobe : ℕ), o.centroids.length ≤ nprobe →
          s.nextId ∈ ivfCandidates
            ({ o with
                buckets := (bucketAppend o.buckets
                  (assignIdx (align_dim (emb text) d0) o.centroids) s.nextId),
                count := o.count + 1 }) q nprobe)
      ∧ (∀ (items : List (String × String × Option ℝ)) (now2 : ℝ) (s2 : St),
          (add_batch emb agent items now2 s2).ivf = s2.ivf) := by
  have heq := add_memory_fresh_eq emb agent text meta ts now s hfp
  rw [heq]
  refine ⟨rfl, ?_, bucketAppend_mem _ _ _, ?_, add_batch_ivf_frame emb agent⟩
  · unfold ivf_add
    rw [show ({ s with db := s.db ++ [freshRow agent text meta (pyOr ts now) (emb text) s.nextId],
                       nextId := s.nextId + 1 } : St).ivf = [(d0, [(k0, o)])] from hstore]
    rw [show ivf_read [(d0, [(k0, o)])] = some o from rfl]
    dsimp only []
    rw [if_neg hd0, hdim, if_neg hC]
    rw [show aget [(d0, [(k0, o)])] d0 = some [(k0, o)] from by simp [aget]]
    dsimp only []
    rw [show maxKKey [(k0, o)] = some k0 from rfl]
    dsimp only []
    rw [show aget [(k0, o)] k0 = some o from by simp [aget]]
    dsimp only []
    rw [show aset [(k0, o)] k0 ({ o with
          buckets := bucketAppend o.buckets
            (pyMaxIdx (fun j => dot (align_dim (emb text) d0) (o.centroids.getD j [])) o.centroids.length)
            s.nextId,
          count := o.count + 1 }) = [(k0, { o with
          buckets := bucketAppend o.buckets
            (pyMaxIdx (fun j => dot (align_dim (emb text) d0) (o.centroids.getD j [])) o.centroids.length)
            s.nextId,
          count := o.count + 1 })] from by simp [aset]]
    rw [show ∀ x, aset [(d0, [(k0, o)])] d0 x = [(d0, x)] from fun x => by simp [aset]]
    rw [hdim]
    rfl
  · intro q nprobe hnp
    exact ivfCandidates_mem _ q nprobe _ s.nextId
      (assignIdx_lt _ _ hC) hnp (bucketAppend_mem _ _ _)

/-- A one-cluster IVF index payload with an empty bucket. -/
def oC2 : IvfData :=
  { ts := 0, dim := 1, K := 1, count := 0, centroids := [[1]], buckets := [(0, [])] }

/-- An empty-table state that already has an IVF index stored. -/
def stC2 : St := { db := [], nextId := 7, ivf := [(1, [(1, oC2)])] }

/-- All member ids reachable from any bucket of any stored index. -/
def allBucketIds (s : IvfStore) : List ℕ :=
  s.flatMap (fun d => d.2.flatMap (fun k => k.2.buckets.flatMap (fun b => b.2)))

/-- Counterexample to C2 as stated: with an index present, a record added via
add_batch (new id 7) leaves the IVF store byte-for-byte unchanged, so its id
is appended to no centroid bucket at all. -/
theorem C2_counterexample :
    ivf_read stC2.ivf = some oC2
      ∧ ((add_batch (fun _ => [1]) "a1" [("x", "{}", none)] 0 stC2).db.map (fun r => r.id)) = [7]
      ∧ (add_batch (fun _ => [1]) "a1" [("x", "{}", none)] 0 stC2).ivf = stC2.ivf
      ∧ 7 ∉ allBucketIds (add_batch (fun _ => [1]) "a1" [("x", "{}", none)] 0 stC2).ivf := by
  refine ⟨rfl, rfl, rfl, ?_⟩
  rw [show allBucketIds (add_batch (fun _ => [1]) "a1" [("x", "{}", none)] 0 stC2).ivf = []
    from rfl]
  exact List.not_mem_nil 7

/-- Witness for C2 (amended) at a concrete state: the add_memory conjuncts instantiated. -/
theorem C2_witness :
    (add_memory (fun _ => [1]) "a1" "x" "{}" none 0 stC2).1 = stC2.nextId
      ∧ (add_memory (fun _ => [1]) "a1" "x" "{}" none 0 stC2).2.ivf
          = [(1, [(1, { oC2 with
                buckets := (bucketAppend oC2.buckets
                  (assignIdx (align_dim ((fun _ => ([1] : Vec)) "x") 1) oC2.centroids) stC2.nextId),
                count := oC2.count + 1 })])] :=
  let h := C2_incremental_insert_add_memory_only (fun _ => [1]) "a1" "x" "{}" none 0 stC2
    1 1 oC2 rfl rfl (by norm_num [oC2]) (by simp [oC2]) rfl
  ⟨h.1, h.2.1⟩

/-! Claim C6: searching with a blank query. -/

/-- A token-less text hash-embeds to the zero vector. -/
theorem embed_hash_blank (digest : String → List ℕ) (t : String) (h : hashToks t = []) :
    embed_hash digest t = List.replicate DIM 0 := by
  unfold embed_hash
  rw [show rawHashVec digest t = List.replicate DIM 0 from by
    unfold rawHashVec
    rw [h]
    rfl]
  exact norm_list_replicate_zero DIM

/-- Truncating or padding a zero vector gives the zero vector of the requested width. -/
theorem pad_trunc_replicate_zero (n dim : ℕ) :
    pad_trunc (List.replicate n (0 : ℝ)) dim = List.replicate dim 0 := by
  unfold pad_trunc
  rw [List.length_replicate]
  by_cases h : n > dim
  · rw [if_pos h, List.take_replicate]
    congr 1
    omega
  · rw [if_neg h, ← List.replicate_add]
    congr 1
    omega

/-- Aligning a zero vector gives the zero vector of the index width. -/
theorem align_dim_replicate_zero (n dim : ℕ) :
    align_dim (List.replicate n (0 : ℝ)) dim = List.replicate dim 0 := by
  unfold align_dim
  rw [pad_trunc_replicate_zero]
  exact norm_list_replicate_zero dim

/-- Dot product against a zero vector vanishes. -/
theorem dot_replicate_zero (v : Vec) : ∀ n : ℕ, dot v (List.replicate n 0) = 0 := by
  induction v with
  | nil => intro n; simp [dot]
  | cons x v ih =>
    intro n
    cases n with
    | zero => simp [dot]
    | succ n =>
      rw [List.replicate_succ]
      unfold dot at ih ⊢
      rw [List.zipWith_cons_cons, List.sum_cons, ih n]
      simp

/-- Reading any position of a zero list with default zero gives zero. -/
theorem getD_replicate_zero (i : ℕ) : ∀ n : ℕ, (List.replicate n (0 : ℝ)).getD i 0 = 0 := by
  induction i with
  | zero => intro n; cases n <;> simp [List.getD]
  | succ i ih =>
    intro n
    cases n with
    | zero => simp [List.getD]
    | succ n =>
      rw [List.replicate_succ]
      exact ih n

/-- Sorting under a constant key is the identity (the sort is stable). -/
theorem sortIdxDesc_const (f : ℕ → ℝ) (c : ℝ) (hf : ∀ i, f i = c) :
    ∀ l : List ℕ, sortIdxDesc f l = l := by
  intro l
  induction l with
  | nil => rfl
  | cons j l ih =>
    unfold sortIdxDesc at ih ⊢
    rw [List.foldr_cons, ih]
    cases l with
    | nil => rfl
    | cons k rest =>
      unfold insDesc
      rw [if_pos (by rw [hf j, hf k])]

/-- Ranking all-zero similarities under default options: the first min(top_k, n) rows come back, each scored 0. -/
theorem rankHits_zero_sims (query : String) (topK : ℕ) (tw now : ℝ) (meta : List MemRec) :
    (rankHits query topK 0 "none" tw 0 now meta (List.replicate meta.length 0)).length
        = min topK meta.length
      ∧ ∀ h ∈ rankHits query topK 0 "none" tw 0 now meta (List.replicate meta.length 0),
          h.score = 0 := by
  unfold rankHits
  dsimp only []
  rw [if_neg (by decide : ¬(("none" : String) = "tfidf"))]
  rw [if_neg (show ¬((0 : ℝ) > 0) from lt_irrefl 0)]
  rw [if_neg (show ¬((0 : ℝ) > 0) from lt_irrefl 0)]
  rw [List.length_replicate]
  rw [sortIdxDesc_const _ 0 (fun i => getD_replicate_zero i meta.length) (List.range meta.length)]
  rw [List.take_range]
  constructor
  · rw [List.length_map, List.length_range]
  · intro h hmem
    obtain ⟨i, _, hi⟩ := List.mem_map.mp hmem
    rw [← hi]
    exact getD_replicate_zero i meta.length

/-- A blank query under the hash backend with no readable index: search does a
full scan with a zero query vector, returning the first min(top_k, n) rows all
scored 0 — the empty list exactly when the agent has no rows. -/
theorem searchVec_blank (digest : String → List ℕ) (useIvf : Bool) (nprobe topK : ℕ)
    (tw now : ℝ) (agent query : String) (s : St)
    (hblank : hashToks query = []) (hidx : ivf_read s.ivf = none) (htop : 1 ≤ topK) :
    (searchVec useIvf nprobe topK 0 "none" tw 0 now agent query (embed_hash digest query) s).length
        = min topK (s.db.filter (fun r => r.agent == agent)).length
      ∧ (∀ h ∈ searchVec useIvf nprobe topK 0 "none" tw 0 now agent query
            (embed_hash digest query) s, h.score = 0)
      ∧ (searchVec useIvf nprobe topK 0 "none" tw 0 now agent query (embed_hash digest query) s = []
          ↔ s.db.filter (fun r => r.agent == agent) = []) := by
  rw [embed_hash_blank digest query hblank]
  unfold searchVec
  rw [show (if useIvf then ivf_read s.ivf else none) = none from by cases useIvf <;> simp [hidx]]
  dsimp only []
  unfold fullScan
  cases hrecs : s.db.filter (fun r => r.agent == agent) with
  | nil => simp
  | cons r0 rest =>
    dsimp only []
    rw [align_dim_replicate_zero]
    rw [show ((r0 :: rest).map fun r => dot (align_dim r.vec r0.vec.length) (List.replicate r0.vec.length 0))
        = (r0 :: rest).map (fun _ => (0 : ℝ)) from by
      apply List.map_congr_left
      intro r _
      exact dot_replicate_zero _ _]
    rw [List.map_const']
    have hrk := rankHits_zero_sims query topK tw now (r0 :: rest)
    refine ⟨hrk.1, hrk.2, ?_⟩
    rw [← List.length_eq_zero, hrk.1]
    simp only [List.length_cons]
    constructor
    · intro h
      omega
    · intro h
      cases h

/-- The exact scan with a zero query vector: the first min(top_k, n) rows, all scored 0. -/
theorem fullScan_zero (query : String) (topK : ℕ) (tw now : ℝ) (recs : List MemRec) :
    (fullScan query topK 0 "none" tw 0 now recs (List.replicate DIM 0)).length
        = min topK recs.length
      ∧ ∀ h ∈ fullScan query topK 0 "none" tw 0 now recs (List.replicate DIM 0), h.score = 0 := by
  unfold fullScan
  cases recs with
  | nil => simp
  | cons r0 rest =>
    dsimp only []
    rw [align_dim_replicate_zero]
    rw [show ((r0 :: rest).map fun r => dot (align_dim r.vec r0.vec.length) (List.replicate r0.vec.length 0))
        = (r0 :: rest).map (fun _ => (0 : ℝ)) from by
      apply List.map_congr_left
      intro r _
      exact dot_replicate_zero _ _]
    rw [List.map_const']
    exact rankHits_zero_sims query topK tw now (r0 :: rest)

/-- C6 (amended): search_memory on an empty or whitespace-only query under
the hash backend never fails, whatever the index state (top_k at least 1,
default options): the query embeds to the zero vector, so the result is
empty exactly when the agent has no stored records, every returned hit is
scored 0, at most top_k hits come back, and on the exact-scan path (no index
read) the count is exactly min(top_k, n). -/
theorem C6_blank_query_never_fails (digest : String → List ℕ) (useIvf : Bool)
    (nprobe topK : ℕ) (tw now : ℝ) (agent query : String) (s : St)
    (hblank : hashToks query = []) (htop : 1 ≤ topK) :
    (search_memory (embed_hash digest) useIvf nprobe topK 0 "none" tw 0 now agent query s = []
        ↔ s.db.filter (fun r => r.agent == agent) = [])
      ∧ (∀ h ∈ search_memory (embed_hash digest) useIvf nprobe topK 0 "none" tw 0 now agent query s,
          h.score = 0)
      ∧ (search_memory (embed_hash digest) useIvf nprobe topK 0 "none" tw 0 now agent query s).length
          ≤ topK
      ∧ ((if useIvf then ivf_read s.ivf else none) = none →
          (search_memory (embed_hash digest) useIvf nprobe topK 0 "none" tw 0 now agent query s).length
            = min topK (s.db.filter (fun r => r.agent == agent)).length) := by
  rw [show search_memory (embed_hash digest) useIvf nprobe topK 0 "none" tw 0 now agent query s
      = searchVec useIvf nprobe topK 0 "none" tw 0 now agent query (embed_hash digest query) s
      from rfl]
  rw [embed_hash_blank digest query hblank]
  unfold searchVec
  cases hidx : (if useIvf then ivf_read s.ivf else none) with
  | none =>
    dsimp only []
    have h := fullScan_zero query topK tw now (s.db.filter (fun r => r.agent == agent))
    refine ⟨?_, h.2, ?_, fun _ => h.1⟩
    · constructor
      · intro hres
        have hlen : (fullScan query topK 0 "none" tw 0 now
            (s.db.filter (fun r => r.agent == agent)) (List.replicate DIM 0)).length = 0 := by
          rw [hres]
          rfl
        rw [h.1] at hlen
        rw [← List.length_eq_zero]
        omega
      · intro hrecs
        rw [← List.length_eq_zero, h.1, hrecs]
        simp
    · rw [h.1]
      omega
  | some idx =>
    dsimp only []
    set dim2 := (if idx.dim = 0 then (List.replicate DIM (0 : ℝ)).length else idx.dim) with hdim2
    rw [align_dim_replicate_zero]
    split
    · have h := fullScan_zero query topK tw now (s.db.filter (fun r => r.agent == agent))
      refine ⟨?_, h.2, ?_, fun habs => Option.noConfusion habs⟩
      · constructor
        · intro hres
          have hlen : (fullScan query topK 0 "none" tw 0 now
              (s.db.filter (fun r => r.agent == agent)) (List.replicate DIM 0)).length = 0 := by
            rw [hres]
            rfl
          rw [h.1] at hlen
          rw [← List.length_eq_zero]
          omega
        · intro hrecs
          rw [← List.length_eq_zero, h.1, hrecs]
          simp
      · rw [h.1]
        omega
    · split
      · have h := fullScan_zero query topK tw now (s.db.filter (fun r => r.agent == agent))
        refine ⟨?_, h.2, ?_, fun habs => Option.noConfusion habs⟩
        · constructor
          · intro hres
            have hlen : (fullScan query topK 0 "none" tw 0 now
                (s.db.filter (fun r => r.agent == agent)) (List.replicate DIM 0)).length = 0 := by
              rw [hres]
              rfl
            rw [h.1] at hlen
            rw [← List.length_eq_zero]
            omega
          · intro hrecs
            rw [← List.length_eq_zero, h.1, hrecs]
            simp
        · rw [h.1]
          omega
      · next hre =>
        set rows := (s.db.filter (fun r => r.agent == agent)).filter
          (fun r => (ivfCandidates idx (List.replicate dim2 0) nprobe).contains r.id) with hrowsdef
        have hrne : rows ≠ [] := by
          intro hnil
          exact hre (by rw [hnil]; rfl)
        rw [show (rows.map (fun r => dot (align_dim r.vec dim2) (List.replicate dim2 0)))
            = rows.map (fun _ => (0 : ℝ)) from by
          apply List.map_congr_left
          intro r _
          exact dot_replicate_zero _ _]
        rw [List.map_const']
        have h := rankHits_zero_sims query topK tw now rows
        have hrlen : 1 ≤ rows.length := by
          cases hrows : rows with
          | nil => exact absurd hrows hrne
          | cons a l => simp
        refine ⟨?_, h.2, ?_, fun habs => Option.noConfusion habs⟩
        · constructor
          · intro hres
            have hlen : (rankHits query topK 0 "none" tw 0 now rows
                (List.replicate rows.length 0)).length = 0 := by
              rw [hres]
              rfl
            rw [h.1] at hlen
            omega
          · intro hrecs
            rw [hrecs] at hrowsdef
            rw [show (List.filter (fun r => (ivfCandidates idx
                (List.replicate dim2 0) nprobe).contains r.id) ([] : List MemRec)) = [] from rfl]
              at hrowsdef
            exact absurd hrowsdef hrne
        · rw [h.1]
          omega

/-- Counterexample to C6 as stated: an empty query against an agent with one
stored record returns one hit, not an empty result list. -/
theorem C6_counterexample :
    (search_memory (embed_hash digest0) true 4 8 0 "none" (3/10) 0 0 "a1" "" stC3).length = 1 := by
  have h := (searchVec_blank digest0 true 4 8 (3/10) 0 "a1" "" stC3 (by decide) rfl (by norm_num)).1
  rw [show search_memory (embed_hash digest0) true 4 8 0 "none" (3/10) 0 0 "a1" "" stC3
      = searchVec true 4 8 0 "none" (3/10) 0 0 "a1" "" (embed_hash digest0 "") stC3 from rfl]
  rw [h]
  simp [stC3]

/-! Claim C4: probing every bucket makes IVF search agree with the exact scan. -/

/-- C4 (amended): when the index's stored width is positive and matches every
stored vector's width, every record id sits in some bucket below K, and
nprobe is set to K (at least 2 clusters), the IVF-backed search returns the
same top-1 hit as the full exact scan (default decay, hybrid and freshness
options). -/
theorem C4_nprobe_K_matches_full_scan (idx : IvfData) (topK : ℕ) (tw now : ℝ)
    (agent query : String) (qRaw : Vec) (s : St)
    (hidx : ivf_read s.ivf = some idx)
    (hK : 2 ≤ idx.centroids.length)
    (hd : idx.dim ≠ 0)
    (hw : ∀ r ∈ s.db.filter (fun r => r.agent == agent), r.vec.length = idx.dim)
    (hb : ∀ r ∈ s.db.filter (fun r => r.agent == agent),
        ∃ j < idx.centroids.length, r.id ∈ (aget idx.buckets j).getD []) :
    (searchVec true idx.centroids.length topK 0 "none" tw 0 now agent query qRaw s).head?
      = (fullScan query topK 0 "none" tw 0 now (s.db.filter (fun r => r.agent == agent)) qRaw).head? := by
  unfold searchVec
  rw [show (if true then ivf_read s.ivf else none) = some idx from by simp [hidx]]
  dsimp only []
  rw [if_neg hd]
  cases hr : s.db.filter (fun r => r.agent == agent) with
  | nil =>
    by_cases hc : ivfCandidates idx (align_dim qRaw idx.dim) idx.centroids.length = []
    · rw [if_pos hc]
    · rw [if_neg hc]
      rw [if_pos (show (List.filter
          (fun r => (ivfCandidates idx (align_dim qRaw idx.dim) idx.centroids.length).contains r.id)
          ([] : List MemRec)).isEmpty = true from rfl)]
  | cons r0 rest =>
    have hmem0 : r0 ∈ s.db.filter (fun r => r.agent == agent) := by
      rw [hr]; exact List.mem_cons_self r0 rest
    have hcand : ∀ r ∈ (r0 :: rest),
        r.id ∈ ivfCandidates idx (align_dim qRaw idx.dim) idx.centroids.length := by
      intro r hrm
      obtain ⟨j, hj, hjm⟩ := hb r (by rw [hr]; exact hrm)
      exact ivfCandidates_mem idx _ idx.centroids.length j r.id hj (le_refl _) hjm
    have hcne : ivfCandidates idx (align_dim qRaw idx.dim) idx.centroids.length ≠ [] :=
      List.ne_nil_of_mem (hcand r0 (List.mem_cons_self r0 rest))
    rw [if_neg hcne]
    have hrows : (r0 :: rest).filter
        (fun r => (ivfCandidates idx (align_dim qRaw idx.dim) idx.centroids.length).contains r.id)
          = r0 :: rest :=
      List.filter_eq_self.mpr (fun r hrm => List.elem_iff.mpr (hcand r hrm))
    rw [hrows]
    rw [if_neg (by simp : ¬((r0 :: rest).isEmpty = true))]
    unfold fullScan
    dsimp only []
    rw [show r0.vec.length = idx.dim from hw r0 hmem0]

/-- First record of the C4 witness corpus (width 1, matching the index). -/
def rC : MemRec :=
  { id := 1, agent := "a1", ts := 0, text := "a", meta := "{}", vec := [1], fp := "a", freq := 1 }

/-- Second record of the C4 witness corpus. -/
def rD : MemRec :=
  { id := 2, agent := "a1", ts := 0, text := "b", meta := "{}", vec := [0], fp := "b", freq := 1 }

/-- The C4 witness index: two clusters, widths consistent with the corpus. -/
def oW4 : IvfData :=
  { ts := 0, dim := 1, K := 2, count := 2, centroids := [[1], [0]], buckets := [(0, [1]), (1, [2])] }

/-- The C4 witness state. -/
def stW4 : St := { db := [rC, rD], nextId := 3, ivf := [(1, [(2, oW4)])] }

/-- Witness for C4 (amended) at a two-record, two-cluster state of consistent width. -/
theorem C4_witness :
    (searchVec true oW4.centroids.length 8 0 "none" (3/10) 0 0 "a1" "q" [1] stW4).head?
      = (fullScan "q" 8 0 "none" (3/10) 0 0 (stW4.db.filter (fun r => r.agent == "a1")) [1]).head? :=
  C4_nprobe_K_matches_full_scan oW4 8 (3/10) 0 "a1" "q" [1] stW4 rfl
    (by norm_num [oW4])
    (by norm_num [oW4])
    (by
      intro r hr
      simp [stW4, rC, rD] at hr
      rcases hr with h | h <;> subst h <;> rfl)
    (by
      intro r hr
      simp [stW4, rC, rD] at hr
      rcases hr with h | h <;> subst h
      · exact ⟨0, by norm_num [oW4], by simp [oW4, aget]⟩
      · exact ⟨1, by norm_num [oW4], by simp [oW4, aget]⟩)

/-- When the IVF index is read and its candidates cover every row of the
agent, the IVF branch of search ranks exactly the agent's rows with
similarities taken at the index width. -/
theorem searchVec_ivf_eval (idx : IvfData) (nprobe topK : ℕ) (tw now : ℝ)
    (agent query : String) (qRaw : Vec) (s : St)
    (hidx : ivf_read s.ivf = some idx) (hd : idx.dim ≠ 0)
    (hne : s.db.filter (fun r => r.agent == agent) ≠ [])
    (hcand : ∀ r ∈ s.db.filter (fun r => r.agent == agent),
        r.id ∈ ivfCandidates idx (align_dim qRaw idx.dim) nprobe) :
    searchVec true nprobe topK 0 "none" tw 0 now agent query qRaw s
      = rankHits query topK 0 "none" tw 0 now (s.db.filter (fun r => r.agent == agent))
          ((s.db.filter (fun r => r.agent == agent)).map
            (fun r => dot (align_dim r.vec idx.dim) (align_dim qRaw idx.dim))) := by
  unfold searchVec
  rw [show (if true then ivf_read s.ivf else none) = some idx from by simp [hidx]]
  dsimp only []
  rw [if_neg hd]
  cases hr : s.db.filter (fun r => r.agent == agent) with
  | nil => exact absurd hr hne
  | cons r0 rest =>
    rw [hr] at hcand
    have hcne : ivfCandidates idx (align_dim qRaw idx.dim) nprobe ≠ [] :=
      List.ne_nil_of_mem (hcand r0 (List.mem_cons_self r0 rest))
    rw [if_neg hcne]
    rw [List.filter_eq_self.mpr (fun r hrm => List.elem_iff.mpr (hcand r hrm))]
    rw [if_neg (by simp : ¬((r0 :: rest).isEmpty = true))]

/-- Ranking two rows with the second similarity strictly larger puts the second row first. -/
theorem rankHits_two_desc (query : String) (topK : ℕ) (tw now : ℝ) (m0 m1 : MemRec)
    (a b : ℝ) (hab : ¬ b ≤ a) (htop : 1 ≤ topK) :
    (rankHits query topK 0 "none" tw 0 now [m0, m1] [a, b]).head?
      = some { id := m1.id, ts := m1.ts, text := m1.text, meta := m1.meta, score := b } := by
  unfold rankHits
  dsimp only []
  rw [if_neg (by decide : ¬(("none" : String) = "tfidf"))]
  rw [if_neg (show ¬((0 : ℝ) > 0) from lt_irrefl 0)]
  rw [if_neg (show ¬((0 : ℝ) > 0) from lt_irrefl 0)]
  rw [show sortIdxDesc (fun i => ([a, b] : List ℝ).getD i 0) (List.range ([a, b] : List ℝ).length)
      = if b ≤ a then [0, 1] else [1, 0] from rfl]
  rw [if_neg hab]
  obtain ⟨k, hk⟩ : ∃ k, topK = k + 1 := ⟨topK - 1, by omega⟩
  rw [hk, List.take_succ_cons]
  rfl

/-- Ranking two rows with the first similarity at least the second keeps the first row first (the sort is stable). -/
theorem rankHits_two_stable (query : String) (topK : ℕ) (tw now : ℝ) (m0 m1 : MemRec)
    (a b : ℝ) (hba : b ≤ a) (htop : 1 ≤ topK) :
    (rankHits query topK 0 "none" tw 0 now [m0, m1] [a, b]).head?
      = some { id := m0.id, ts := m0.ts, text := m0.text, meta := m0.meta, score := a } := by
  unfold rankHits
  dsimp only []
  rw [if_neg (by decide : ¬(("none" : String) = "tfidf"))]
  rw [if_neg (show ¬((0 : ℝ) > 0) from lt_irrefl 0)]
  rw [if_neg (show ¬((0 : ℝ) > 0) from lt_irrefl 0)]
  rw [show sortIdxDesc (fun i => ([a, b] : List ℝ).getD i 0) (List.range ([a, b] : List ℝ).length)
      = if b ≤ a then [0, 1] else [1, 0] from rfl]
  rw [if_pos hba]
  obtain ⟨k, hk⟩ : ∃ k, topK = k + 1 := ⟨topK - 1, by omega⟩
  rw [hk, List.take_succ_cons]
  rfl

/-- Dot product against the one-component zero vector vanishes. -/
theorem dot_zero_singleton (v : Vec) : dot v [(0 : ℝ)] = 0 := by
  cases v <;> simp [dot]

/-- First record of the C4 counterexample corpus: width 2. -/
def rA : MemRec :=
  { id := 1, agent := "a1", ts := 0, text := "alpha", meta := "{}", vec := [1, 0], fp := "alpha", freq := 1 }

/-- Second record of the C4 counterexample corpus: width 2, orthogonal to the first. -/
def rB : MemRec :=
  { id := 2, agent := "a1", ts := 0, text := "beta", meta := "{}", vec := [0, 1], fp := "beta", freq := 1 }

/-- The C4 counterexample index: K = 2 clusters of width 1 (narrower than the stored vectors), every id in bucket 0. -/
def oC4 : IvfData :=
  { ts := 0, dim := 1, K := 2, count := 2, centroids := [[1], [0]], buckets := [(0, [1, 2]), (1, [])] }

/-- The C4 counterexample state. -/
def stC4 : St := { db := [rA, rB], nextId := 3, ivf := [(1, [(2, oC4)])] }

/-- The embedding backend of the C4 counterexample: the query embeds parallel to the second record. -/
noncomputable def embC4 : String → Vec := fun _ => [0, 1]

/-- Witness for C6 (amended) at a two-record state that has an IVF index stored, with an empty query string. -/
theorem C6_witness :
    (search_memory (embed_hash digest0) true 2 8 0 "none" (3/10) 0 0 "a1" "" stC4 = []
        ↔ stC4.db.filter (fun r => r.agent == "a1") = [])
      ∧ (search_memory (embed_hash digest0) true 2 8 0 "none" (3/10) 0 0 "a1" "" stC4).length ≤ 8 :=
  ⟨(C6_blank_query_never_fails digest0 true 2 8 (3/10) 0 "a1" "" stC4 (by decide) (by norm_num)).1,
   (C6_blank_query_never_fails digest0 true 2 8 (3/10) 0 "a1" "" stC4 (by decide) (by norm_num)).2.2.1⟩

/-- Counterexample to C4 as stated: a corpus whose stored vectors are wider
than the index dimension. Every id is in a bucket and nprobe equals K = 2,
yet IVF-backed search (which aligns to the index width 1, collapsing both
rows to a zero similarity tie broken by order) returns record 1 on top, while
the full exact scan (aligning to the corpus width 2) returns record 2. -/
theorem C4_counterexample :
    ivf_read stC4.ivf = some oC4
      ∧ oC4.centroids.length = 2
      ∧ 1 ∈ (aget oC4.buckets 0).getD []
      ∧ 2 ∈ (aget oC4.buckets 0).getD []
      ∧ (search_memory embC4 true 2 8 0 "none" (3/10) 0 0 "a1" "q" stC4).head?.map (fun h => h.id)
          = some 1
      ∧ (search_memory embC4 false 2 8 0 "none" (3/10) 0 0 "a1" "q" stC4).head?.map (fun h => h.id)
          = some 2 := by
  refine ⟨rfl, rfl, by simp [oC4, aget], by simp [oC4, aget], ?_, ?_⟩
  · show (searchVec true 2 8 0 "none" (3/10) 0 0 "a1" "q" ([0, 1] : Vec) stC4).head?.map
        (fun h => h.id) = some 1
    rw [searchVec_ivf_eval oC4 2 8 (3/10) 0 "a1" "q" ([0, 1] : Vec) stC4 rfl (by decide)
      (by simp [stC4, rA, rB])
      (by
        intro r hr
        simp [stC4, rA, rB] at hr
        rcases hr with h | h <;> subst h
        · exact ivfCandidates_mem oC4 _ 2 0 1 (by norm_num [oC4]) (by norm_num [oC4])
            (by simp [oC4, aget])
        · exact ivfCandidates_mem oC4 _ 2 0 2 (by norm_num [oC4]) (by norm_num [oC4])
            (by simp [oC4, aget]))]
    rw [show stC4.db.filter (fun r => r.agent == "a1") = [rA, rB] from rfl]
    rw [show oC4.dim = 1 from rfl]
    have hq1 : align_dim ([0, 1] : Vec) 1 = [0] := by
      unfold align_dim
      rw [show pad_trunc ([0, 1] : Vec) 1 = [0] from by unfold pad_trunc; norm_num]
      unfold norm_list
      simp
    rw [hq1]
    rw [show ([rA, rB].map (fun r => dot (align_dim r.vec 1) [0]))
        = [dot (align_dim rA.vec 1) [0], dot (align_dim rB.vec 1) [0]] from rfl]
    rw [dot_zero_singleton, dot_zero_singleton]
    rw [rankHits_two_stable "q" 8 (3/10) 0 rA rB 0 0 le_rfl (by norm_num)]
    rfl
  · rw [show search_memory embC4 false 2 8 0 "none" (3/10) 0 0 "a1" "q" stC4
        = fullScan "q" 8 0 "none" (3/10) 0 0 (stC4.db.filter (fun r => r.agent == "a1"))
            ([0, 1] : Vec) from rfl]
    rw [show stC4.db.filter (fun r => r.agent == "a1") = [rA, rB] from rfl]
    unfold fullScan
    dsimp only []
    rw [show rA.vec.length = 2 from rfl]
    have hq2 : align_dim ([0, 1] : Vec) 2 = [0, 1 / norm_div [0, 1]] := by
      unfold align_dim
      rw [show pad_trunc ([0, 1] : Vec) 2 = [0, 1] from by unfold pad_trunc; norm_num]
      unfold norm_list
      simp
    rw [hq2]
    rw [show ([rA, rB].map (fun r => dot (align_dim r.vec 2) [0, 1 / norm_div [0, 1]]))
        = [dot (align_dim rA.vec 2) [0, 1 / norm_div [0, 1]],
           dot (align_dim rB.vec 2) [0, 1 / norm_div [0, 1]]] from rfl]
    have hsA : dot (align_dim rA.vec 2) [0, 1 / norm_div [0, 1]] = 0 := by
      rw [show align_dim rA.vec 2 = norm_list [1, 0] from by
        unfold align_dim
        rw [show pad_trunc rA.vec 2 = [1, 0] from by unfold pad_trunc rA; norm_num]]
      unfold norm_list
      simp [dot]
    have hsB : dot (align_dim rB.vec 2) [0, 1 / norm_div [0, 1]]
        = (1 / norm_div [0, 1]) * (1 / norm_div [0, 1]) := by
      rw [show align_dim rB.vec 2 = align_dim ([0, 1] : Vec) 2 from rfl, hq2]
      simp [dot]
    rw [hsA, hsB]
    have hpos : (0 : ℝ) < (1 / norm_div [0, 1]) * (1 / norm_div [0, 1]) := by
      have h := norm_div_pos [0, 1]
      positivity
    rw [rankHits_two_desc "q" 8 (3/10) 0 rA rB 0 _ (not_le.mpr hpos) (by norm_num)]
    rfl

end Qjson
